import Mathlib

/-! # Fuze: service definitions and the container

A shallow embedding of `ServiceDefinition.hpp`, `Container.hpp`,
`Parameter.hpp` and `parameter_provider/ParameterProvider.hpp`.

Conventions of the embedding.

* A `T*` is an address (`Ptr`), `nullptr` being address `0`.
* A `std::shared_ptr<T>` returned by `get` is a `Handle`: the address it holds
  and the deleter it was built with. Dropping the last owner of the handle is
  `Handle.release`, which runs that deleter once on that address.
* The user closures are outside the program. The factory closure is the
  sequence of the outcomes of its successive invocations (`Construct`), an
  outcome being an exception or an address. The teardown closure is observed
  only through the record of the addresses it was invoked on.
* `throw` is `Except.error`; every stateful function returns the state it
  leaves behind next to its outcome.
-/

namespace fuze

/-- Address of an object; `nullptr` is address `0`. -/
abbrev Ptr := Nat

/-- The null address. -/
def nullptr : Ptr := 0

/-- Token of `std::type_info`: one value per C++ type. -/
abbrev TypeInfo := String

/-- Exceptions of `exceptions.hpp`, and whatever else a user closure throws. -/
inductive Exn where
  | ServiceException (message : String)
  | ParameterException (message : String)
  | foreign (what : String)
  deriving DecidableEq, Repr

deriving instance DecidableEq for Except

/-- The `int` of the source: 32-bit two's complement. -/
def wrapInt (x : Int) : Int := (x + 2 ^ 31) % 2 ^ 32 - 2 ^ 31

/-- Factory closure `std::function<T*(Container&)>`, seen from the definition
that calls it: the outcome of its invocation number `k` (counted from 0). -/
abbrev Construct := Nat → Except Exn Ptr

/-- Deleter a `shared_ptr` was built with in `ServiceDefinition::get`:
the `destructor` closure itself (line 198), or the lambda calling
`this->destructShared` (lines 209-211). -/
inductive Deleter where
  | destructor
  | destructShared
  deriving DecidableEq, Repr

/-- The `std::shared_ptr<T>` handed out by `get`. -/
structure Handle where
  ptr : Ptr
  deleter : Deleter
  deriving DecidableEq, Repr

/-- State of `ServiceDefinition<T>` (with the `tags` of its base class).
The last three fields are the record of what the definition did to the outside:
`constructed` counts the invocations of `constructor`, `destructed` lists the
addresses the `destructor` closure was invoked on (oldest first), `deleted`
lists the addresses passed to a plain `delete` expression. -/
structure ServiceDefinition where
  tags : List String
  typeInfo : TypeInfo
  sharedInstance : Ptr
  referenceCounter : Int
  shared : Bool
  persistent : Bool
  constructor : Construct
  constructed : Nat
  destructed : List Ptr
  deleted : List Ptr

namespace ServiceDefinition

/-- State after `ServiceDefinition<T>(constructor, destructor)`: the member
initialisers of lines 82-98. -/
def create (T : TypeInfo) (constructor : Construct) : ServiceDefinition :=
  { tags := []
    typeInfo := T
    sharedInstance := nullptr
    referenceCounter := 0
    shared := true
    persistent := true
    constructor := constructor
    constructed := 0
    destructed := []
    deleted := [] }

/-- Source: `BaseServiceDefinition::tag`: `tags.push_back(tag)`. -/
def tag (d : ServiceDefinition) (t : String) : ServiceDefinition :=
  { d with tags := d.tags ++ [t] }

/-- Source: `BaseServiceDefinition::hasTag`: `std::find` over the tags. -/
def hasTag (d : ServiceDefinition) (t : String) : Bool :=
  d.tags.contains t

/-- Source: `ServiceDefinition::getTypeInfo`. -/
def getTypeInfo (d : ServiceDefinition) : TypeInfo := d.typeInfo

/-- Source: `ServiceDefinition::setShared`. -/
def setShared (d : ServiceDefinition) (sh : Bool) : ServiceDefinition :=
  { d with shared := sh }

/-- Source: `ServiceDefinition::setPersistent`. -/
def setPersistent (d : ServiceDefinition) (p : Bool) : ServiceDefinition :=
  { d with persistent := p }

/-- One invocation of the factory closure: its outcome, and the definition
with the invocation counted. -/
def construct (d : ServiceDefinition) : Except Exn Ptr × ServiceDefinition :=
  (d.constructor d.constructed, { d with constructed := d.constructed + 1 })

/-- One invocation of the teardown closure on `service`. -/
def destruct (d : ServiceDefinition) (service : Ptr) : ServiceDefinition :=
  { d with destructed := d.destructed ++ [service] }

/-- Source: `ServiceDefinition::destructShared` (lines 115-125). -/
def destructShared (d : ServiceDefinition) (service : Ptr) : ServiceDefinition :=
  if !d.persistent then
    if d.referenceCounter ≤ 1 then
      { d.destruct service with sharedInstance := nullptr }
    else
      { d with referenceCounter := wrapInt (d.referenceCounter - 1) }
  else d

/-- Source: `ServiceDefinition::get` (lines 193-215). A throwing factory leaves the
function at the point of the call. -/
def get (d : ServiceDefinition) : Except Exn Handle × ServiceDefinition :=
  if !d.shared then
    match d.construct with
    | (.error e, d1) => (.error e, d1)
    | (.ok p, d1) => (.ok ⟨p, .destructor⟩, d1)
  else
    let filled : Except Exn Unit × ServiceDefinition :=
      if d.sharedInstance = nullptr then
        match d.construct with
        | (.error e, d1) => (.error e, d1)
        | (.ok p, d1) => (.ok (), { d1 with sharedInstance := p })
      else (.ok (), d)
    match filled with
    | (.error e, d1) => (.error e, d1)
    | (.ok (), d1) =>
      let d2 := if !d1.persistent then
        { d1 with referenceCounter := wrapInt (d1.referenceCounter + 1) } else d1
      (.ok ⟨d2.sharedInstance, .destructShared⟩, d2)

/-- Source: `ServiceDefinition::~ServiceDefinition` (lines 153-156):
`delete sharedInstance`, which does nothing on `nullptr`. -/
def destroy (d : ServiceDefinition) : ServiceDefinition :=
  if d.sharedInstance = nullptr then d
  else { d with deleted := d.deleted ++ [d.sharedInstance] }

end ServiceDefinition

/-- The last owner of a handle issued by `d` goes away: the deleter runs on
the address the handle holds. -/
def Handle.release (h : Handle) (d : ServiceDefinition) : ServiceDefinition :=
  match h.deleter with
  | .destructor => d.destruct h.ptr
  | .destructShared => d.destructShared h.ptr

/-- The value box of `Parameter.hpp`. -/
structure Parameter where
  value : String
  deriving DecidableEq, Repr

/-- An object implementing the `ParameterProvider` interface: its two
virtual functions. -/
structure ParameterProvider where
  hasParameter : String → Bool
  getParameter : String → Except Exn Parameter

/-- Token `typeid(ParameterProvider)`. -/
def typeidParameterProvider : TypeInfo := "fuze::ParameterProvider"

/-- The `std::map<std::string, BaseServiceDefinition*>`: its entries in
iteration order, which is ascending key order. -/
abbrev Definitions := List (String × ServiceDefinition)

namespace Definitions

/-- Source: `definitions.find(name)`: the mapped definition, `none` for `end()`. -/
def find : Definitions → String → Option ServiceDefinition
  | [], _ => none
  | (k, d) :: rest, name => if name = k then some d else find rest name

/-- Source: `definitions[name] = def`: the entry under `name` is replaced, or a new
entry is put at its place in key order (`std::less<std::string>`, the
lexicographic order of the characters). -/
def assign : Definitions → String → ServiceDefinition → Definitions
  | [], name, d => [(name, d)]
  | (k, v) :: rest, name, d =>
    if name = k then (k, d) :: rest
    else if name.data < k.data then (name, d) :: (k, v) :: rest
    else (k, v) :: assign rest name d

end Definitions

/-- State of `Container`. -/
structure Container where
  definitions : Definitions
  parameterProvidersLoaded : Bool
  parameterProviders : List Handle

namespace Container

/-- State after `Container()`. -/
def empty : Container :=
  { definitions := [], parameterProvidersLoaded := false, parameterProviders := [] }

/-- Source: `Container::registerService<T>(name, constructor, destructor)` (lines
74-110). The overloads differ in the closures only; `constructor` is the
factory the definition ends up with (`new T()` for the first overload). -/
def registerService (c : Container) (T : TypeInfo) (name : String)
    (constructor : Construct) : Container :=
  { c with definitions := c.definitions.assign name (ServiceDefinition.create T constructor) }

/-- A call through the reference returned by `registerService`, or through a
pointer held in the map: `f` is applied to the definition under `name`. -/
def onDefinition (c : Container) (name : String)
    (f : ServiceDefinition → ServiceDefinition) : Container :=
  match c.definitions.find name with
  | none => c
  | some d => { c with definitions := c.definitions.assign name (f d) }

/-- Message of the exception thrown for a name that is not registered. -/
def unknownService (name : String) : Exn :=
  .ServiceException ("Trying to get unknown service '" ++ name ++ "'")

/-- Message of the exception thrown for a definition of another type. -/
def invalidType (name : String) : Exn :=
  .ServiceException ("Invalid type supplied for service '" ++ name ++ "'")

/-- Source: `Container::getServiceDefinition<T>` (lines 169-182). -/
def getServiceDefinition (c : Container) (T : TypeInfo) (name : String) :
    Except Exn ServiceDefinition :=
  match c.definitions.find name with
  | none => .error (unknownService name)
  | some d =>
    if d.getTypeInfo ≠ T then .error (invalidType name)
    else .ok d

/-- Source: `Container::get<T>` (lines 115-119): the definition found is the object
in the map, so the state its `get` leaves is stored under `name`. -/
def get (c : Container) (T : TypeInfo) (name : String) : Except Exn Handle × Container :=
  match c.getServiceDefinition T name with
  | .error e => (.error e, c)
  | .ok d => ((d.get).1, { c with definitions := c.definitions.assign name (d.get).2 })

/-- The last owner of a handle issued by the definition under `name` goes
away. -/
def release (c : Container) (name : String) (h : Handle) : Container :=
  c.onDefinition name h.release

/-- The loop of `Container::tag<T>` (lines 124-132) over the entries still to
visit: the exception that ended it, if any, the `result` vector (each handle
with the name of its definition) and the container it leaves. -/
def tagScan (T : TypeInfo) (t : String) :
    Definitions → Container → List (String × Handle) →
      Option Exn × List (String × Handle) × Container
  | [], c, result => (none, result, c)
  | e :: rest, c, result =>
    if e.2.hasTag t then
      match c.get T e.1 with
      | (.error x, c1) => (some x, result, c1)
      | (.ok h, c1) => tagScan T t rest c1 (result ++ [(e.1, h)])
    else tagScan T t rest c result

/-- Source: `Container::tag<T>` (lines 121-135). When `get` throws, `result` goes out
of scope and the handles collected so far are released, front to back. -/
def tag (c : Container) (T : TypeInfo) (t : String) : Except Exn (List Handle) × Container :=
  match tagScan T t c.definitions c [] with
  | (none, result, c1) => (.ok (result.map Prod.snd), c1)
  | (some x, result, c1) => (.error x, result.foldl (fun c2 e => c2.release e.1 e.2) c1)

/-- The exception of `getParameter` when no provider has the parameter. -/
def noParameterProvider : Exn := .ParameterException "Unable to find parameter"

/-- Source: `Container::getParameter` (lines 137-162). `heap` gives the provider
object at an address. -/
def getParameter (heap : Ptr → ParameterProvider) (c : Container) (name : String) :
    Except Exn Parameter × Container :=
  let loaded : Except Exn Unit × Container :=
    if !c.parameterProvidersLoaded then
      match c.tag typeidParameterProvider "di.parameter_provider" with
      | (.error x, c1) => (.error x, c1)
      | (.ok providers, c1) =>
        (.ok (), { c1 with parameterProviders := providers, parameterProvidersLoaded := true })
    else (.ok (), c)
  match loaded with
  | (.error x, c1) => (.error x, c1)
  | (.ok (), c1) =>
    match c1.parameterProviders.find? (fun provider => (heap provider.ptr).hasParameter name) with
    | none => (.error noParameterProvider, c1)
    | some p =>
      if p.ptr = nullptr then (.error noParameterProvider, c1)
      else ((heap p.ptr).getParameter name, c1)

/-- Source: `Container::~Container` (lines 64-72): `delete` on every mapped
definition. -/
def destroy (c : Container) : Container :=
  { c with definitions := c.definitions.map (fun e => (e.1, e.2.destroy)) }

end Container

/-! ## Runs of one definition

A client of one definition calls its configuration functions and `get`, and
drops handles `get` gave it. A run records the handles issued and which of
them are gone. -/

/-- One operation of a client on a definition. `release i` drops the handle
the `i`-th successful `get` returned (counted from 0). -/
inductive Op where
  | get
  | release (i : Nat)
  | setShared (sh : Bool)
  | setPersistent (p : Bool)
  | tag (t : String)
  deriving DecidableEq, Repr

/-- Whether the operation is a `get` or a release. -/
def Op.isRetrieval : Op → Bool
  | .get => true
  | .release _ => true
  | _ => false

/-- A definition with the handles it issued so far (in order of issue) and
the indices of those already released. -/
structure Run where
  definition : ServiceDefinition
  issued : List Handle
  released : List Nat

namespace Run

/-- Whether handle `i` was issued and is not released yet. -/
def live (r : Run) (i : Nat) : Bool :=
  decide (i < r.issued.length) && !r.released.contains i

/-- Number of live handles. -/
def liveCount (r : Run) : Nat :=
  ((List.range r.issued.length).filter r.live).length

/-- The run of a definition nobody retrieved from yet. -/
def start (d : ServiceDefinition) : Run :=
  { definition := d, issued := [], released := [] }

/-- One operation. A handle is released at most once, and only after it was
issued: any other `release` is not an operation of a client and does nothing. -/
def step (r : Run) : Op → Run
  | .get =>
    match r.definition.get with
    | (.error _, d) => { r with definition := d }
    | (.ok h, d) => { r with definition := d, issued := r.issued ++ [h] }
  | .release i =>
    match r.issued[i]? with
    | none => r
    | some h =>
      if r.released.contains i then r
      else { r with definition := h.release r.definition, released := i :: r.released }
  | .setShared sh => { r with definition := r.definition.setShared sh }
  | .setPersistent p => { r with definition := r.definition.setPersistent p }
  | .tag t => { r with definition := r.definition.tag t }

/-- A sequence of operations, first to last. -/
def run (r : Run) (ops : List Op) : Run := ops.foldl step r

end Run

/-! ## Inputs and invariants used by the theorems -/

/-- A factory in the manner of `new T()`: invocation `k` yields the object at
address `base + k`. -/
def allocating (base : Nat) : Construct := fun k => .ok (base + k)

/-- What holds of a run of a shared persistent definition. -/
structure PersistentRun (ctor : Construct) (ops : List Op) (r : Run) : Prop where
  shared : r.definition.shared = true
  persistent : r.definition.persistent = true
  ctor_eq : r.definition.constructor = ctor
  destructed : r.definition.destructed = []
  issued : r.issued.length = ops.count .get
  before : Op.get ∉ ops → r.definition.constructed = 0 ∧ r.definition.sharedInstance = nullptr
  after : Op.get ∈ ops → r.definition.constructed = 1
    ∧ ctor 0 = .ok r.definition.sharedInstance
    ∧ r.definition.sharedInstance ≠ nullptr
    ∧ ∀ h ∈ r.issued, h = ⟨r.definition.sharedInstance, .destructShared⟩

/-- What holds of a run of a shared, not persistent definition after `n`
operations. -/
structure CountedRun (n : Nat) (r : Run) : Prop where
  shared : r.definition.shared = true
  persistent : r.definition.persistent = false
  deleter : ∀ h ∈ r.issued, h.deleter = .destructShared
  nodup : r.released.Nodup
  bound : ∀ i ∈ r.released, i < r.issued.length
  issued : r.issued.length ≤ n
  once : r.definition.destructed.length ≤ 1
  counter : r.definition.referenceCounter + r.released.length
    = r.issued.length + r.definition.destructed.length

/-- What holds of a run of a shared persistent definition, whatever its
factory does. -/
structure KeptRun (r : Run) : Prop where
  shared : r.definition.shared = true
  persistent : r.definition.persistent = true
  deleter : ∀ h ∈ r.issued, h.deleter = .destructShared
  destructed : r.definition.destructed = []

/-- What holds of a run of a definition that is not shared. -/
structure TransientRun (ctor : Construct) (r : Run) : Prop where
  shared : r.definition.shared = false
  ctor_eq : r.definition.constructor = ctor
  made : ∀ h ∈ r.issued, h.deleter = .destructor ∧
    ∃ k, k < r.definition.constructed ∧ ctor k = .ok h.ptr
  distinct : (r.issued.map Handle.ptr).Nodup
  gone : ∀ p ∈ r.definition.destructed,
    ∃ j ∈ r.released, ∃ h, r.issued[j]? = some h ∧ h.ptr = p
  once : r.definition.destructed.Nodup

/-- A provider object answering from a fixed table of parameters. -/
def tableProvider (table : List (String × String)) : ParameterProvider :=
  { hasParameter := fun name => (table.lookup name).isSome
    getParameter := fun name =>
      match table.lookup name with
      | some v => .ok ⟨v⟩
      | none => .error (.ParameterException ("Unable to get unknown parameter '" ++ name ++ "'")) }

/-- A heap with two provider objects, at addresses 1 and 2. -/
def twoProviders : Ptr → ParameterProvider
  | 1 => tableProvider [("a", "1")]
  | 2 => tableProvider [("a", "2"), ("b", "3")]
  | _ => tableProvider []

/-- A container with two provider definitions, `"p1"` and `"p2"`, tagged as
parameter providers; their factories yield the objects at 1 and 2. -/
def providerContainer : Container :=
  (((Container.empty.registerService typeidParameterProvider "p2" (allocating 2)).onDefinition
    "p2" (fun d => d.tag "di.parameter_provider")).registerService typeidParameterProvider "p1"
      (allocating 1)).onDefinition "p1" (fun d => d.tag "di.parameter_provider")

/-- The container `providerContainer` after a first `getParameter`: its
provider cache is loaded. -/
def loadedContainer : Container :=
  (providerContainer.getParameter twoProviders "a").2

/-- The keys of a `std::map` are strictly ascending in iteration order. -/
def Definitions.ordered (m : Definitions) : Prop :=
  m.Pairwise (fun a b => a.1 < b.1)

/-- A container with three definitions, registered out of key order:
`"b"` and `"a"` of type `Engine` carry the tag `"x"` (`"b"` twice), `"c"` of
type `Logger` carries no tag. -/
def taggedContainer : Container :=
  (((((Container.empty.registerService "Engine" "b" (allocating 200)).onDefinition "b"
    (fun d => (d.tag "x").tag "x")).registerService "Logger" "c"
      (allocating 300)).registerService "Engine" "a" (allocating 100)).onDefinition "a"
        (fun d => (d.tag "x").setShared false))

/-- The container `taggedContainer` with its `Logger` tagged `"x"` too. -/
def mixedContainer : Container :=
  taggedContainer.onDefinition "c" (fun d => d.tag "x")

/-! ## Bootstrap of the container -/

/-- A bootstrap object of `ServiceProvider.hpp`, seen through its one virtual
function `registerServices(Container&)`. -/
abbrev ServiceProvider := Container → Container

/-- Source: `EnvParameterProviderServiceProvider::registerServices` (lines
78-89 of `EnvParameterProvider.hpp`). `newProvider` is the default factory
`new T()` the one-argument `registerService` gives the definition. -/
def EnvParameterProviderServiceProvider.registerServices (newProvider : Construct) :
    ServiceProvider := fun container =>
  (container.registerService typeidParameterProvider "fuze.parameter_provider.env"
    newProvider).onDefinition "fuze.parameter_provider.env"
      (fun d => d.tag "fuze.parameter_provider")

/-- Source: `Container::Container(const ServiceProviderList&)` (lines 53-62):
every bootstrap object registers its services, in list order. -/
def Container.withProviders (list : List ServiceProvider) : Container :=
  list.foldl (fun c provider => provider c) Container.empty

/-- A factory that throws at its first invocation and yields the object at
address `k` at invocation `k` afterwards. -/
def failingOnce : Construct := fun k =>
  if k = 0 then .error (.foreign "not ready") else .ok k

/-- A container whose only provider definition has the factory `failingOnce`. -/
def flakyContainer : Container :=
  (Container.empty.registerService typeidParameterProvider "p" failingOnce).onDefinition "p"
    (fun d => d.tag "di.parameter_provider")

/-- A container with two definitions tagged as parameter providers: `"a"`, a
provider that is not shared, and `"b"`, which is of type `Logger`. -/
def mistaggedContainer : Container :=
  (((Container.empty.registerService typeidParameterProvider "a" (allocating 1)).onDefinition "a"
    (fun d => (d.tag "di.parameter_provider").setShared false)).registerService "Logger" "b"
      (allocating 50)).onDefinition "b" (fun d => d.tag "di.parameter_provider")

/-- The container built from the bundled bootstrap alone. -/
def envContainer : Container :=
  Container.withProviders [EnvParameterProviderServiceProvider.registerServices (allocating 1)]

/-! ## Conversions of `Parameter`

The conversion operators of `Parameter.hpp` hand `value.c_str()` to the C
library functions `atoi` and `atol`. These are embedded as ISO C describes
them: `strtol` in base 10 in the "C" locale, on the characters before the
first NUL. -/

/-- `long` of the source on an LP64 platform: 64-bit two's complement. -/
def wrapLong (x : Int) : Int := (x + 2 ^ 63) % 2 ^ 64 - 2 ^ 63

/-- `isspace` in the "C" locale: space, `\t`, `\n`, `\v`, `\f`, `\r`. -/
def isspace (c : Char) : Bool :=
  c = ' ' || c = '\t' || c = '\n' || c = Char.ofNat 11 || c = Char.ofNat 12 || c = '\r'

/-- `isdigit`: the characters `0` to `9`. -/
def isdigit (c : Char) : Bool :=
  decide (48 ≤ c.toNat) && decide (c.toNat ≤ 57)

/-- The digit loop of `strtol` in base 10: the value of the longest prefix of
decimal digits, on top of `acc`. -/
def strtolDigits (acc : Nat) : List Char → Nat
  | [] => acc
  | c :: cs => if isdigit c then strtolDigits (acc * 10 + (c.toNat - 48)) cs else acc

/-- The number `strtol(s, NULL, 10)` reads, before any range check: white
space is skipped, then an optional sign, then decimal digits; 0 when there is
no digit. -/
def strtol10 (s : List Char) : Int :=
  match s.dropWhile isspace with
  | '-' :: rest => - (strtolDigits 0 rest : Int)
  | '+' :: rest => (strtolDigits 0 rest : Int)
  | rest => (strtolDigits 0 rest : Int)

/-- The C string `s.c_str()` is read as: the characters before the first NUL. -/
def c_str (s : String) : List Char :=
  s.data.takeWhile (fun c => c ≠ Char.ofNat 0)

/-- The library function `atoi`: `(int)strtol(s, NULL, 10)`. ISO C leaves
the result undefined when the number is not representable; here it wraps. -/
def atoi (s : List Char) : Int := wrapInt (strtol10 s)

/-- The library function `atol`: `strtol(s, NULL, 10)`, wrapping like `atoi`. -/
def atol (s : List Char) : Int := wrapLong (strtol10 s)

namespace Parameter

/-- Source: `Parameter::Parameter()` (lines 28-30): the empty value. -/
def default : Parameter := ⟨""⟩

/-- Source: `Parameter::operator int()` (lines 48-51). -/
def toInt (p : Parameter) : Int := atoi (c_str p.value)

/-- Source: `Parameter::operator long int()` (lines 57-60). -/
def toLong (p : Parameter) : Int := atol (c_str p.value)

/-- Source: `Parameter::operator std::string()` (lines 85-88): a copy of the
value. -/
def toStdString (p : Parameter) : String := p.value

end Parameter

/-- The predicate "the cached instance is non-empty only if `shared`". -/
def ServiceDefinition.cachedOnlyIfShared (d : ServiceDefinition) : Prop :=
  d.sharedInstance ≠ nullptr → d.shared = true

/-- What holds of a reference-counted run as long as nothing was torn down,
when the factory never yields `nullptr`. -/
structure AliasedRun (ctor : Construct) (r : Run) : Prop where
  ctor_eq : r.definition.constructor = ctor
  nonnull : ∀ h ∈ r.issued, h.ptr ≠ nullptr
  same : r.definition.destructed = [] → ∀ h ∈ r.issued, h.ptr = r.definition.sharedInstance

/-- The run of a fresh definition set to shared and not persistent. -/
abbrev Run.counted (T : TypeInfo) (ctor : Construct) : Run :=
  Run.start (((ServiceDefinition.create T ctor).setShared true).setPersistent false)

/-! ## Lookup in the container -/

theorem getServiceDefinition_none {c : Container} {T : TypeInfo} {name : String}
    (h : c.definitions.find name = none) :
    c.getServiceDefinition T name = .error (Container.unknownService name) := by
  simp [Container.getServiceDefinition, h]

theorem getServiceDefinition_invalid {c : Container} {T : TypeInfo} {name : String}
    {d : ServiceDefinition} (h : c.definitions.find name = some d) (hT : d.typeInfo ≠ T) :
    c.getServiceDefinition T name = .error (Container.invalidType name) := by
  simp [Container.getServiceDefinition, h, ServiceDefinition.getTypeInfo, hT]

theorem getServiceDefinition_ok {c : Container} {T : TypeInfo} {name : String}
    {d : ServiceDefinition} (h : c.definitions.find name = some d) (hT : d.typeInfo = T) :
    c.getServiceDefinition T name = .ok d := by
  simp [Container.getServiceDefinition, h, ServiceDefinition.getTypeInfo, hT]

theorem unknownService_ne_invalidType (a b : String) :
    Container.unknownService a ≠ Container.invalidType b := by
  intro h
  simp only [Container.unknownService, Container.invalidType, Exn.ServiceException.injEq] at h
  have h1 := congrArg String.data h
  simp only [String.data_append] at h1
  have h2 := congrArg List.head? h1
  simp at h2

/-- C1. `Container::get<T>(name)`: the lookup throws the unknown-service
exception exactly when nothing is registered under `name`, and the invalid-type
exception exactly when the definition under `name` has another type token than
`T`; in the first case `get` throws that exception, in the second that one, and
in every other case `get` is the outcome of the `get` of the definition found,
whose state is stored back under `name`. -/
theorem container_get_cases (c : Container) (T : TypeInfo) (name : String) :
    (c.getServiceDefinition T name = .error (Container.unknownService name)
        ↔ c.definitions.find name = none) ∧
    (c.getServiceDefinition T name = .error (Container.invalidType name)
        ↔ ∃ d, c.definitions.find name = some d ∧ d.typeInfo ≠ T) ∧
    (c.definitions.find name = none →
        c.get T name = (.error (Container.unknownService name), c)) ∧
    (∀ d, c.definitions.find name = some d → d.typeInfo ≠ T →
        c.get T name = (.error (Container.invalidType name), c)) ∧
    (∀ d, c.definitions.find name = some d → d.typeInfo = T →
        c.get T name =
          ((d.get).1, { c with definitions := c.definitions.assign name (d.get).2 })) := by
  refine ⟨⟨?_, getServiceDefinition_none⟩, ⟨?_, ?_⟩, ?_, ?_, ?_⟩
  · intro h
    cases hf : c.definitions.find name with
    | none => rfl
    | some d =>
      by_cases hT : d.typeInfo = T
      · rw [getServiceDefinition_ok hf hT] at h; cases h
      · rw [getServiceDefinition_invalid hf hT] at h
        exact absurd (Except.error.inj h).symm (unknownService_ne_invalidType _ _)
  · intro h
    cases hf : c.definitions.find name with
    | none =>
      rw [getServiceDefinition_none hf] at h
      exact absurd (Except.error.inj h) (unknownService_ne_invalidType _ _)
    | some d =>
      by_cases hT : d.typeInfo = T
      · rw [getServiceDefinition_ok hf hT] at h; cases h
      · exact ⟨d, rfl, hT⟩
  · rintro ⟨d, hf, hT⟩
    exact getServiceDefinition_invalid hf hT
  · intro hf
    simp [Container.get, getServiceDefinition_none hf]
  · intro d hf hT
    simp [Container.get, getServiceDefinition_invalid hf hT]
  · intro d hf hT
    simp [Container.get, getServiceDefinition_ok hf hT]

theorem container_get_cases_witness :
    (((Container.empty.registerService "Engine" "svc" (allocating 100)).get
        "Logger" "svc").1 = .error (Container.invalidType "svc")) ∧
    (((Container.empty.registerService "Engine" "svc" (allocating 100)).get
        "Engine" "missing").1 = .error (Container.unknownService "missing")) ∧
    (((Container.empty.registerService "Engine" "svc" (allocating 100)).get
        "Engine" "svc").1 = .ok ⟨100, .destructShared⟩) :=
  ⟨congrArg Prod.fst
      ((container_get_cases (Container.empty.registerService "Engine" "svc" (allocating 100))
        "Logger" "svc").2.2.2.1 (ServiceDefinition.create "Engine" (allocating 100)) rfl
        (by decide)),
   congrArg Prod.fst
      ((container_get_cases (Container.empty.registerService "Engine" "svc" (allocating 100))
        "Engine" "missing").2.2.1 rfl),
   congrArg Prod.fst
      ((container_get_cases (Container.empty.registerService "Engine" "svc" (allocating 100))
        "Engine" "svc").2.2.2.2 (ServiceDefinition.create "Engine" (allocating 100)) rfl rfl)⟩

/-! ## Runs of one definition -/

theorem run_snoc (r : Run) (ops : List Op) (o : Op) :
    r.run (ops ++ [o]) = (r.run ops).step o := by
  simp [Run.run, List.foldl_append]

theorem get_cached_persistent {d : ServiceDefinition} (hs : d.shared = true)
    (hp : d.persistent = true) (hi : d.sharedInstance ≠ nullptr) :
    d.get = (.ok ⟨d.sharedInstance, .destructShared⟩, d) := by
  simp [ServiceDefinition.get, hs, hp, hi]

theorem get_empty_persistent {d : ServiceDefinition} {p : Ptr} (hs : d.shared = true)
    (hp : d.persistent = true) (hi : d.sharedInstance = nullptr)
    (hc : d.constructor d.constructed = .ok p) :
    d.get = (.ok ⟨p, .destructShared⟩,
      { d with constructed := d.constructed + 1, sharedInstance := p }) := by
  simp [ServiceDefinition.get, ServiceDefinition.construct, hs, hp, hi, hc]

theorem destructShared_persistent {d : ServiceDefinition} (hp : d.persistent = true)
    (p : Ptr) : d.destructShared p = d := by
  simp [ServiceDefinition.destructShared, hp]

theorem persistentRun_run (T : TypeInfo) (ctor : Construct) (ops : List Op)
    (hops : ∀ o ∈ ops, o.isRetrieval = true)
    (hf : ∀ k, ∃ p, ctor k = .ok p ∧ p ≠ nullptr) :
    PersistentRun ctor ops ((Run.start (ServiceDefinition.create T ctor)).run ops) := by
  induction ops using List.reverseRecOn with
  | nil =>
    refine ⟨rfl, rfl, rfl, rfl, rfl, fun _ => ⟨rfl, rfl⟩, fun h => absurd h (by simp)⟩
  | append_singleton ops o ih =>
    have ih := ih (fun o ho => hops o (by simp [ho]))
    have ho : o.isRetrieval = true := hops o (by simp)
    rw [run_snoc]
    generalize (Run.start (ServiceDefinition.create T ctor)).run ops = r at ih
    obtain ⟨hs, hp, hc, hd, hi, hb, ha⟩ := ih
    cases o with
    | get =>
      by_cases hg : Op.get ∈ ops
      · obtain ⟨h1, h2, h3, h4⟩ := ha hg
        have e := get_cached_persistent hs hp h3
        refine ⟨?_, ?_, ?_, ?_, ?_, ?_, ?_⟩ <;> simp only [Run.step, e]
        · exact hs
        · exact hp
        · exact hc
        · exact hd
        · simp [hi]
        · intro h; exact absurd (by simp) h
        · intro _
          refine ⟨h1, h2, h3, ?_⟩
          intro h hh
          rcases List.mem_append.1 hh with hh | hh
          · exact h4 h hh
          · simpa using hh
      · obtain ⟨h1, h2⟩ := hb hg
        obtain ⟨p, hp0, hpn⟩ := hf 0
        have hc0 : r.definition.constructor r.definition.constructed = .ok p := by
          rw [hc, h1, hp0]
        have e := get_empty_persistent hs hp h2 hc0
        have hnil : r.issued = [] := by
          apply List.eq_nil_of_length_eq_zero
          rw [hi]; exact List.count_eq_zero.2 hg
        refine ⟨?_, ?_, ?_, ?_, ?_, ?_, ?_⟩ <;> simp only [Run.step, e]
        · exact hs
        · exact hp
        · exact hc
        · exact hd
        · simp [hi]
        · intro h; exact absurd (by simp) h
        · intro _
          refine ⟨by simp [h1], hp0, hpn, ?_⟩
          simp [hnil]
    | release i =>
      have key : (r.step (.release i)).definition = r.definition
          ∧ (r.step (.release i)).issued = r.issued := by
        simp only [Run.step]
        cases hget : r.issued[i]? with
        | none => exact ⟨rfl, rfl⟩
        | some h =>
          by_cases hrel : i ∈ r.released
          · simp [hrel]
          · have hg : Op.get ∈ ops := by
              by_contra hg
              have : r.issued.length = 0 := by rw [hi]; exact List.count_eq_zero.2 hg
              have hnil := List.eq_nil_of_length_eq_zero this
              simp [hnil] at hget
            obtain ⟨_, _, _, h4⟩ := ha hg
            have hh := h4 h (List.getElem?_mem hget)
            simp [hrel, Handle.release, hh, destructShared_persistent hp]
      obtain ⟨k1, k2⟩ := key
      refine ⟨by rw [k1]; exact hs, by rw [k1]; exact hp, by rw [k1]; exact hc,
        by rw [k1]; exact hd, ?_, ?_, ?_⟩
      · rw [k2, hi]; simp
      · intro h; rw [k1]; exact hb (fun hg => h (by simp [hg]))
      · intro h
        have hg : Op.get ∈ ops := by simpa using h
        rw [k1, k2]; exact ha hg
    | setShared sh => simp [Op.isRetrieval] at ho
    | setPersistent p => simp [Op.isRetrieval] at ho
    | tag t => simp [Op.isRetrieval] at ho

/-- C2. A definition left shared and persistent, whose factory yields an
object at every invocation, under any sequence of `get`s and releases with at
least one `get`: the factory is invoked exactly once, on some object `p`, and
every handle issued holds `p`; at every point of the sequence the teardown
closure has not been invoked, the factory has not been invoked before the
first `get`, and from the first `get` on it has been invoked once and the
cached instance is `p`. -/
theorem shared_persistent_single_instance (T : TypeInfo) (ctor : Construct) (ops : List Op)
    (hops : ∀ o ∈ ops, o.isRetrieval = true)
    (hf : ∀ k, ∃ p, ctor k = .ok p ∧ p ≠ nullptr)
    (hN : 1 ≤ ops.count Op.get) :
    ∃ p, ctor 0 = .ok p ∧ p ≠ nullptr ∧
      ((Run.start (ServiceDefinition.create T ctor)).run ops).definition.constructed = 1 ∧
      ((Run.start (ServiceDefinition.create T ctor)).run ops).issued.length
        = ops.count Op.get ∧
      (∀ h ∈ ((Run.start (ServiceDefinition.create T ctor)).run ops).issued, h.ptr = p) ∧
      ∀ n,
        ((Run.start (ServiceDefinition.create T ctor)).run (ops.take n)).definition.destructed
          = [] ∧
        (Op.get ∉ ops.take n →
          ((Run.start (ServiceDefinition.create T ctor)).run
            (ops.take n)).definition.constructed = 0) ∧
        (Op.get ∈ ops.take n →
          ((Run.start (ServiceDefinition.create T ctor)).run
            (ops.take n)).definition.constructed = 1 ∧
          ((Run.start (ServiceDefinition.create T ctor)).run
            (ops.take n)).definition.sharedInstance = p) := by
  have hg : Op.get ∈ ops := List.count_pos_iff.1 hN
  have hfin := persistentRun_run T ctor ops hops hf
  obtain ⟨h1, h2, h3, h4⟩ := hfin.after hg
  refine ⟨_, h2, h3, h1, hfin.issued, ?_, ?_⟩
  · intro h hh
    rw [h4 h hh]
  · intro n
    have hn := persistentRun_run T ctor (ops.take n)
      (fun o ho => hops o (List.mem_of_mem_take ho)) hf
    refine ⟨hn.destructed, fun h => (hn.before h).1, fun h => ?_⟩
    obtain ⟨k1, k2, _, _⟩ := hn.after h
    refine ⟨k1, ?_⟩
    have := k2.symm.trans h2
    exact (Except.ok.inj this)

theorem shared_persistent_single_instance_witness :
    ∃ p, allocating 100 0 = .ok p ∧ p ≠ nullptr ∧
      ((Run.start (ServiceDefinition.create "Engine" (allocating 100))).run
        [.get, .get, .release 0, .get, .release 2, .release 1]).definition.constructed = 1 ∧
      ((Run.start (ServiceDefinition.create "Engine" (allocating 100))).run
        [.get, .get, .release 0, .get, .release 2, .release 1]).issued.length = 3 ∧
      ((Run.start (ServiceDefinition.create "Engine" (allocating 100))).run
        [.get, .get, .release 0, .get, .release 2, .release 1]).definition.destructed = [] := by
  obtain ⟨p, h1, h2, h3, h4, _, h6⟩ :=
    shared_persistent_single_instance "Engine" (allocating 100)
      [.get, .get, .release 0, .get, .release 2, .release 1] (by decide)
      (fun k => ⟨100 + k, rfl, by simp [nullptr]⟩) (by decide)
  exact ⟨p, h1, h2, h3, h4, by simpa using (h6 6).1⟩

theorem wrapInt_of_bounds {x : Int} (h1 : -2 ^ 31 ≤ x) (h2 : x < 2 ^ 31) : wrapInt x = x := by
  unfold wrapInt
  omega

/-- C3, at the failing input. A reference-counted definition after `get`,
release, `get`, release: no handle is live, the teardown closure was invoked on
the first object only, the second object is still cached and the counter is
still 1; a further `get` hands out the second object without invoking the
factory. -/
theorem refcounted_second_cycle_keeps_instance :
    ((Run.start ((ServiceDefinition.create "Engine" (allocating 100)).setPersistent false)).run
        [.get, .release 0, .get, .release 1]).liveCount = 0 ∧
    ((Run.start ((ServiceDefinition.create "Engine" (allocating 100)).setPersistent false)).run
        [.get, .release 0, .get, .release 1]).definition.destructed = [100] ∧
    ((Run.start ((ServiceDefinition.create "Engine" (allocating 100)).setPersistent false)).run
        [.get, .release 0, .get, .release 1]).definition.sharedInstance = 101 ∧
    ((Run.start ((ServiceDefinition.create "Engine" (allocating 100)).setPersistent false)).run
        [.get, .release 0, .get, .release 1]).definition.referenceCounter = 1 ∧
    ((Run.start ((ServiceDefinition.create "Engine" (allocating 100)).setPersistent false)).run
        [.get, .release 0, .get, .release 1, .get]).definition.constructed = 2 ∧
    ((Run.start ((ServiceDefinition.create "Engine" (allocating 100)).setPersistent false)).run
        [.get, .release 0, .get, .release 1, .get]).issued[2]?
          = some ⟨101, .destructShared⟩ := by
  decide

/-- C4. A fresh definition set to shared and not persistent, whose factory
yields an object `p` at its first invocation. After two `get`s the factory was
invoked once and the counter is 2. Releasing either handle invokes no teardown
and leaves `p` cached; releasing the other one invokes the teardown closure
once, on `p`, and empties the cache; a `get` after that invokes the factory
once more. -/
theorem refcounted_two_handles (T : TypeInfo) (ctor : Construct) (p : Ptr)
    (h0 : ctor 0 = .ok p) (hp : p ≠ nullptr) (i j : Nat)
    (hij : (i = 0 ∧ j = 1) ∨ (i = 1 ∧ j = 0)) :
    ((Run.start (((ServiceDefinition.create T ctor).setShared true).setPersistent false)).run
        [.get, .get]).definition.constructed = 1 ∧
    ((Run.start (((ServiceDefinition.create T ctor).setShared true).setPersistent false)).run
        [.get, .get]).definition.referenceCounter = 2 ∧
    ((Run.start (((ServiceDefinition.create T ctor).setShared true).setPersistent false)).run
        [.get, .get]).issued = [⟨p, .destructShared⟩, ⟨p, .destructShared⟩] ∧
    ((Run.start (((ServiceDefinition.create T ctor).setShared true).setPersistent false)).run
        [.get, .get, .release i]).definition.destructed = [] ∧
    ((Run.start (((ServiceDefinition.create T ctor).setShared true).setPersistent false)).run
        [.get, .get, .release i]).definition.sharedInstance = p ∧
    ((Run.start (((ServiceDefinition.create T ctor).setShared true).setPersistent false)).run
        [.get, .get, .release i, .release j]).definition.destructed = [p] ∧
    ((Run.start (((ServiceDefinition.create T ctor).setShared true).setPersistent false)).run
        [.get, .get, .release i, .release j]).definition.sharedInstance = nullptr ∧
    ((Run.start (((ServiceDefinition.create T ctor).setShared true).setPersistent false)).run
        [.get, .get, .release i, .release j]).definition.constructed = 1 ∧
    ((Run.start (((ServiceDefinition.create T ctor).setShared true).setPersistent false)).run
        [.get, .get, .release i, .release j, .get]).definition.constructed = 2 := by
  have w1 : wrapInt 1 = 1 := by decide
  have w2 : wrapInt 2 = 2 := by decide
  rcases hij with ⟨rfl, rfl⟩ | ⟨rfl, rfl⟩ <;> cases h1 : ctor 1 <;>
    simp [Run.run, Run.step, Run.start, ServiceDefinition.get, ServiceDefinition.construct,
      ServiceDefinition.create, ServiceDefinition.setShared, ServiceDefinition.setPersistent,
      ServiceDefinition.destructShared, ServiceDefinition.destruct, Handle.release, h0, h1, hp,
      w1, w2]

theorem get_transient {d : ServiceDefinition} (hs : d.shared = false) :
    d.get = (match d.constructor d.constructed with
      | .error e => .error e
      | .ok p => .ok ⟨p, .destructor⟩, { d with constructed := d.constructed + 1 }) := by
  simp only [ServiceDefinition.get, ServiceDefinition.construct, hs]
  cases d.constructor d.constructed <;> rfl

/-- C5. A definition that is not shared, whatever `persistent` is: `get`
invokes the factory once and changes nothing else of the definition, the
cached instance and the counter included; when the factory yields `p` the
handle returned holds `p`, and when it throws `get` throws the same; releasing
the handle returned invokes the teardown closure once, on the address the
handle holds, and changes nothing else. -/
theorem transient_get (d : ServiceDefinition) (hs : d.shared = false) :
    (d.get).2 = { d with constructed := d.constructed + 1 } ∧
    (d.get).2.sharedInstance = d.sharedInstance ∧
    (d.get).2.referenceCounter = d.referenceCounter ∧
    (d.get).2.destructed = d.destructed ∧
    (∀ p, d.constructor d.constructed = .ok p → (d.get).1 = .ok ⟨p, .destructor⟩) ∧
    (∀ e, d.constructor d.constructed = .error e → (d.get).1 = .error e) ∧
    (∀ h, (d.get).1 = .ok h → d.constructor d.constructed = .ok h.ptr ∧
      ∀ d1 : ServiceDefinition,
        h.release d1 = { d1 with destructed := d1.destructed ++ [h.ptr] }) := by
  rw [get_transient hs]
  refine ⟨rfl, rfl, rfl, rfl, ?_, ?_, ?_⟩
  · intro p hp; simp [hp]
  · intro e he; simp [he]
  · intro h hh
    cases hc : d.constructor d.constructed with
    | error e => simp [hc] at hh
    | ok p =>
      simp only [hc, Except.ok.injEq] at hh
      subst hh
      exact ⟨rfl, fun d1 => rfl⟩

theorem transient_get_witness :
    ((ServiceDefinition.create "Engine" (allocating 100)).setShared false).shared = false ∧
    (((ServiceDefinition.create "Engine" (allocating 100)).setShared false).get).1
      = .ok ⟨100, .destructor⟩ ∧
    (((ServiceDefinition.create "Engine" (allocating 100)).setShared false).get).2.sharedInstance
      = nullptr :=
  ⟨rfl,
   (transient_get ((ServiceDefinition.create "Engine" (allocating 100)).setShared false)
      rfl).2.2.2.2.1 100 rfl,
   (transient_get ((ServiceDefinition.create "Engine" (allocating 100)).setShared false)
      rfl).2.1⟩

theorem refcounted_two_handles_witness :
    allocating 100 0 = .ok 100 ∧
    ((Run.start (((ServiceDefinition.create "Engine" (allocating 100)).setShared
        true).setPersistent false)).run [.get, .get]).definition.referenceCounter = 2 ∧
    ((Run.start (((ServiceDefinition.create "Engine" (allocating 100)).setShared
        true).setPersistent false)).run
          [.get, .get, .release 1, .release 0]).definition.destructed = [100] :=
  ⟨rfl,
   (refcounted_two_handles "Engine" (allocating 100) 100 rfl (by decide) 1 0
      (Or.inr ⟨rfl, rfl⟩)).2.1,
   (refcounted_two_handles "Engine" (allocating 100) 100 rfl (by decide) 1 0
      (Or.inr ⟨rfl, rfl⟩)).2.2.2.2.2.1⟩

theorem run_induction (P : Nat → Run → Prop) (r0 : Run) (ops : List Op)
    (hops : ∀ o ∈ ops, o.isRetrieval = true) (h0 : P 0 r0)
    (hstep : ∀ n r o, n < ops.length → o.isRetrieval = true → P n r → P (n + 1) (r.step o)) :
    P ops.length (r0.run ops) := by
  have key : ∀ k, k ≤ ops.length → P k (r0.run (ops.take k)) := by
    intro k
    induction k with
    | zero => intro _; simpa [Run.run] using h0
    | succ k ih =>
      intro hk
      have hlt : k < ops.length := hk
      have e : ops.take (k + 1) = ops.take k ++ [ops[k]] := by
        rw [List.take_succ, List.getElem?_eq_getElem hlt]; rfl
      rw [e, run_snoc]
      exact hstep k _ _ hlt (hops _ (List.getElem_mem hlt)) (ih (Nat.le_of_lt hlt))
  simpa using key ops.length le_rfl

theorem step_release_none {r : Run} {i : Nat} (h : r.issued[i]? = none) :
    r.step (.release i) = r := by
  simp [Run.step, h]

theorem step_release_gone {r : Run} {i : Nat} (h : i ∈ r.released) :
    r.step (.release i) = r := by
  simp only [Run.step]
  cases r.issued[i]? with
  | none => rfl
  | some a => simp [h]

theorem step_release_live {r : Run} {i : Nat} {h : Handle} (hg : r.issued[i]? = some h)
    (hr : i ∉ r.released) :
    r.step (.release i)
      = { r with definition := h.release r.definition, released := i :: r.released } := by
  simp [Run.step, hg, hr]

theorem live_iff {r : Run} {i : Nat} :
    r.live i = true ↔ i < r.issued.length ∧ i ∉ r.released := by
  simp [Run.live]

theorem nodup_length_le_card (l : List Nat) (s : Finset Nat) (hnd : l.Nodup)
    (hs : ∀ x ∈ l, x ∈ s) : l.length ≤ s.card := by
  rw [← List.toFinset_card_of_nodup hnd]
  exact Finset.card_le_card (fun x hx => hs x (List.mem_toFinset.1 hx))

theorem released_lt_one {l : List Nat} {n i : Nat} (hnd : l.Nodup) (hb : ∀ x ∈ l, x < n)
    (hi : i < n) (hni : i ∉ l) : l.length + 1 ≤ n := by
  have h := nodup_length_le_card l ((Finset.range n).erase i) hnd (by
    intro x hx
    rw [Finset.mem_erase, Finset.mem_range]
    exact ⟨fun e => hni (e ▸ hx), hb x hx⟩)
  rw [Finset.card_erase_of_mem (Finset.mem_range.2 hi), Finset.card_range] at h
  omega

theorem released_lt_two {l : List Nat} {n i j : Nat} (hnd : l.Nodup) (hb : ∀ x ∈ l, x < n)
    (hi : i < n) (hni : i ∉ l) (hj : j < n) (hnj : j ∉ l) (hij : i ≠ j) : l.length + 2 ≤ n := by
  have h := nodup_length_le_card l (((Finset.range n).erase i).erase j) hnd (by
    intro x hx
    rw [Finset.mem_erase, Finset.mem_erase, Finset.mem_range]
    exact ⟨fun e => hnj (e ▸ hx), fun e => hni (e ▸ hx), hb x hx⟩)
  rw [Finset.card_erase_of_mem, Finset.card_erase_of_mem (Finset.mem_range.2 hi),
    Finset.card_range] at h
  · omega
  · rw [Finset.mem_erase, Finset.mem_range]
    exact ⟨fun e => hij e.symm, hj⟩

theorem get_refcounted {d : ServiceDefinition} (hs : d.shared = true)
    (hp : d.persistent = false) :
    (∃ e, d.get = (.error e, { d with constructed := d.constructed + 1 })) ∨
    (∃ p, d.get = (.ok ⟨p, .destructShared⟩,
      { d with constructed := d.constructed + 1, sharedInstance := p,
               referenceCounter := wrapInt (d.referenceCounter + 1) })) ∨
    d.get = (.ok ⟨d.sharedInstance, .destructShared⟩,
      { d with referenceCounter := wrapInt (d.referenceCounter + 1) }) := by
  by_cases hi : d.sharedInstance = nullptr
  · cases hc : d.constructor d.constructed with
    | error e =>
      left
      exact ⟨e, by simp [ServiceDefinition.get, ServiceDefinition.construct, hs, hi, hc]⟩
    | ok p =>
      right; left
      exact ⟨p, by simp [ServiceDefinition.get, ServiceDefinition.construct, hs, hp, hi, hc]⟩
  · right; right
    simp [ServiceDefinition.get, hs, hp, hi]

theorem countedRun_step (N : Nat) (hN : N < 2 ^ 31 - 1) (n : Nat) (r : Run) (o : Op)
    (hn : n < N) (ho : o.isRetrieval = true) (h : CountedRun n r) :
    CountedRun (n + 1) (r.step o) := by
  obtain ⟨hs, hp, hd, hnd, hb, hi, h1, hc⟩ := h
  have hrl : r.released.length ≤ r.issued.length := by
    have := nodup_length_le_card r.released (Finset.range r.issued.length) hnd
      (fun x hx => Finset.mem_range.2 (hb x hx))
    simpa using this
  cases o with
  | get =>
    have hw : wrapInt (r.definition.referenceCounter + 1) = r.definition.referenceCounter + 1 := by
      apply wrapInt_of_bounds <;> omega
    rcases get_refcounted hs hp with ⟨e, he⟩ | ⟨p, he⟩ | he
    · simp only [Run.step, he]
      exact ⟨hs, hp, hd, hnd, hb, Nat.le_succ_of_le hi, h1, hc⟩
    · simp only [Run.step, he, hw]
      refine ⟨hs, hp, ?_, hnd, ?_, ?_, h1, ?_⟩
      · intro h hh
        rcases List.mem_append.1 hh with hh | hh
        · exact hd h hh
        · simp at hh; rw [hh]
      · intro i hi'; have := hb i hi'; simp; omega
      · simp; omega
      · simp; omega
    · simp only [Run.step, he, hw]
      refine ⟨hs, hp, ?_, hnd, ?_, ?_, h1, ?_⟩
      · intro h hh
        rcases List.mem_append.1 hh with hh | hh
        · exact hd h hh
        · simp at hh; rw [hh]
      · intro i hi'; have := hb i hi'; simp; omega
      · simp; omega
      · simp; omega
  | release i =>
    cases hg : r.issued[i]? with
    | none => rw [step_release_none hg]; exact ⟨hs, hp, hd, hnd, hb, Nat.le_succ_of_le hi, h1, hc⟩
    | some h =>
      by_cases hr : i ∈ r.released
      · rw [step_release_gone hr]; exact ⟨hs, hp, hd, hnd, hb, Nat.le_succ_of_le hi, h1, hc⟩
      · rw [step_release_live hg hr]
        have hil : i < r.issued.length := (List.getElem?_eq_some.1 hg).1
        have hlive := released_lt_one hnd hb hil hr
        have hdel : h.release r.definition = r.definition.destructShared h.ptr := by
          simp [Handle.release, hd h (List.getElem?_mem hg)]
        rw [hdel]
        by_cases hle : r.definition.referenceCounter ≤ 1
        · have e : r.definition.destructShared h.ptr
              = { r.definition.destruct h.ptr with sharedInstance := nullptr } := by
            simp [ServiceDefinition.destructShared, hp, hle]
          rw [e]
          refine ⟨hs, hp, hd, List.nodup_cons.2 ⟨hr, hnd⟩, ?_, Nat.le_succ_of_le hi, ?_, ?_⟩
          · intro x hx
            rcases List.mem_cons.1 hx with rfl | hx
            · exact hil
            · exact hb x hx
          · simp only [ServiceDefinition.destruct, List.length_append, List.length_singleton]
            omega
          · simp only [ServiceDefinition.destruct, List.length_append, List.length_singleton,
              List.length_cons, List.length_nil]
            push_cast
            omega
        · have hw : wrapInt (r.definition.referenceCounter - 1)
              = r.definition.referenceCounter - 1 := by
            apply wrapInt_of_bounds <;> omega
          have e : r.definition.destructShared h.ptr
              = { r.definition with referenceCounter := r.definition.referenceCounter - 1 } := by
            simp [ServiceDefinition.destructShared, hp, hle, hw]
          rw [e]
          refine ⟨hs, hp, hd, List.nodup_cons.2 ⟨hr, hnd⟩, ?_, Nat.le_succ_of_le hi, h1, ?_⟩
          · intro x hx
            rcases List.mem_cons.1 hx with rfl | hx
            · exact hil
            · exact hb x hx
          · simp; omega
  | setShared sh => simp [Op.isRetrieval] at ho
  | setPersistent p => simp [Op.isRetrieval] at ho
  | tag t => simp [Op.isRetrieval] at ho

theorem countedRun_run (T : TypeInfo) (ctor : Construct) (ops : List Op)
    (hops : ∀ o ∈ ops, o.isRetrieval = true) (hlen : ops.length < 2 ^ 31 - 1) :
    CountedRun ops.length
      ((Run.start (((ServiceDefinition.create T ctor).setShared true).setPersistent false)).run
        ops) := by
  apply run_induction (fun n r => CountedRun n r) _ ops hops
  · exact ⟨rfl, rfl, by simp [Run.start], by simp [Run.start], by simp [Run.start],
      by simp [Run.start], by simp [Run.start, ServiceDefinition.create,
        ServiceDefinition.setShared, ServiceDefinition.setPersistent],
      by simp [Run.start, ServiceDefinition.create,
        ServiceDefinition.setShared, ServiceDefinition.setPersistent]⟩
  · intro n r o hn ho h
    exact countedRun_step ops.length hlen n r o hn ho h

theorem get_kept {d : ServiceDefinition} (hs : d.shared = true) (hp : d.persistent = true) :
    (∃ e, d.get = (.error e, { d with constructed := d.constructed + 1 })) ∨
    (∃ p, d.get = (.ok ⟨p, .destructShared⟩,
      { d with constructed := d.constructed + 1, sharedInstance := p })) ∨
    d.get = (.ok ⟨d.sharedInstance, .destructShared⟩, d) := by
  by_cases hi : d.sharedInstance = nullptr
  · cases hc : d.constructor d.constructed with
    | error e =>
      left
      exact ⟨e, by simp [ServiceDefinition.get, ServiceDefinition.construct, hs, hi, hc]⟩
    | ok p =>
      right; left
      exact ⟨p, by simp [ServiceDefinition.get, ServiceDefinition.construct, hs, hp, hi, hc]⟩
  · right; right
    simp [ServiceDefinition.get, hs, hp, hi]

theorem mem_snoc_deleter {l : List Handle} {x : Handle} {k : Deleter}
    (hl : ∀ h ∈ l, h.deleter = k) (hx : x.deleter = k) : ∀ h ∈ l ++ [x], h.deleter = k := by
  intro h hh
  rcases List.mem_append.1 hh with hh | hh
  · exact hl h hh
  · simp at hh; rw [hh]; exact hx

theorem keptRun_step (r : Run) (o : Op) (ho : o.isRetrieval = true) (h : KeptRun r) :
    KeptRun (r.step o) := by
  obtain ⟨hs, hp, hd, h0⟩ := h
  cases o with
  | get =>
    rcases get_kept hs hp with ⟨e, he⟩ | ⟨p, he⟩ | he
    · simp only [Run.step, he]; exact ⟨hs, hp, hd, h0⟩
    · simp only [Run.step, he]; exact ⟨hs, hp, mem_snoc_deleter hd rfl, h0⟩
    · simp only [Run.step, he]; exact ⟨hs, hp, mem_snoc_deleter hd rfl, h0⟩
  | release i =>
    cases hg : r.issued[i]? with
    | none => rw [step_release_none hg]; exact ⟨hs, hp, hd, h0⟩
    | some h =>
      by_cases hr : i ∈ r.released
      · rw [step_release_gone hr]; exact ⟨hs, hp, hd, h0⟩
      · rw [step_release_live hg hr]
        have hdel : h.release r.definition = r.definition := by
          simp [Handle.release, hd h (List.getElem?_mem hg), destructShared_persistent hp]
        rw [hdel]
        exact ⟨hs, hp, hd, h0⟩
  | setShared sh => simp [Op.isRetrieval] at ho
  | setPersistent p => simp [Op.isRetrieval] at ho
  | tag t => simp [Op.isRetrieval] at ho

theorem keptRun_run (T : TypeInfo) (ctor : Construct) (ops : List Op)
    (hops : ∀ o ∈ ops, o.isRetrieval = true) :
    KeptRun
      ((Run.start (((ServiceDefinition.create T ctor).setShared true).setPersistent true)).run
        ops) := by
  apply run_induction (fun _ r => KeptRun r) _ ops hops
  · exact ⟨rfl, rfl, by simp [Run.start], rfl⟩
  · intro n r o _ ho h
    exact keptRun_step r o ho h

theorem transientRun_step (ctor : Construct)
    (hinj : ∀ i j p, ctor i = .ok p → ctor j = .ok p → i = j)
    (r : Run) (o : Op) (ho : o.isRetrieval = true) (h : TransientRun ctor r) :
    TransientRun ctor (r.step o) := by
  obtain ⟨hs, hc, hm, hdis, hgone, honce⟩ := h
  cases o with
  | get =>
    have e := get_transient hs
    cases hk : r.definition.constructor r.definition.constructed with
    | error x =>
      rw [hk] at e
      simp only [Run.step, e]
      refine ⟨hs, hc, ?_, hdis, hgone, honce⟩
      intro h hh
      obtain ⟨h1, k, hk1, hk2⟩ := hm h hh
      exact ⟨h1, k, Nat.lt_succ_of_lt hk1, hk2⟩
    | ok p =>
      rw [hk] at e
      simp only [Run.step, e]
      refine ⟨hs, hc, ?_, ?_, ?_, honce⟩
      · intro h hh
        rcases List.mem_append.1 hh with hh | hh
        · obtain ⟨h1, k, hk1, hk2⟩ := hm h hh
          exact ⟨h1, k, Nat.lt_succ_of_lt hk1, hk2⟩
        · simp at hh
          subst hh
          exact ⟨rfl, r.definition.constructed, Nat.lt_succ_self _, by rw [← hc]; exact hk⟩
      · rw [List.map_append, List.map_singleton]
        refine List.Nodup.append hdis (List.nodup_singleton _) ?_
        rw [List.disjoint_singleton]
        intro hmem
        obtain ⟨h, hh, hp⟩ := List.mem_map.1 hmem
        obtain ⟨_, k, hk1, hk2⟩ := hm h hh
        have hk' : ctor r.definition.constructed = .ok p := by rw [← hc]; exact hk
        have := hinj k r.definition.constructed p (by rw [hk2, hp]) hk'
        omega
      · intro q hq
        obtain ⟨j, hj, h, hh, hp⟩ := hgone q hq
        refine ⟨j, hj, h, ?_, hp⟩
        rw [List.getElem?_append_left (List.getElem?_eq_some.1 hh).1]
        exact hh
  | release i =>
    cases hg : r.issued[i]? with
    | none => rw [step_release_none hg]; exact ⟨hs, hc, hm, hdis, hgone, honce⟩
    | some h =>
      by_cases hr : i ∈ r.released
      · rw [step_release_gone hr]; exact ⟨hs, hc, hm, hdis, hgone, honce⟩
      · rw [step_release_live hg hr]
        have hdel : h.release r.definition = r.definition.destruct h.ptr := by
          simp [Handle.release, (hm h (List.getElem?_mem hg)).1]
        rw [hdel]
        refine ⟨hs, hc, hm, hdis, ?_, ?_⟩
        · intro q hq
          rcases List.mem_append.1 hq with hq | hq
          · obtain ⟨j, hj, h', hh, hp⟩ := hgone q hq
            exact ⟨j, List.mem_cons_of_mem _ hj, h', hh, hp⟩
          · simp at hq
            exact ⟨i, List.mem_cons_self _ _, h, hg, hq.symm⟩
        · show (r.definition.destructed ++ [h.ptr]).Nodup
          refine List.Nodup.append honce (List.nodup_singleton _) ?_
          rw [List.disjoint_singleton]
          intro hmem
          obtain ⟨j, hj, h', hh, hp⟩ := hgone _ hmem
          have hil : i < (r.issued.map Handle.ptr).length := by
            simpa using (List.getElem?_eq_some.1 hg).1
          have : i = j := by
            apply List.getElem?_inj hil hdis
            rw [List.getElem?_map, List.getElem?_map, hg, hh]
            simp [hp]
          exact hr (this ▸ hj)
  | setShared sh => simp [Op.isRetrieval] at ho
  | setPersistent p => simp [Op.isRetrieval] at ho
  | tag t => simp [Op.isRetrieval] at ho

theorem transientRun_run (T : TypeInfo) (ctor : Construct) (pe : Bool) (ops : List Op)
    (hops : ∀ o ∈ ops, o.isRetrieval = true)
    (hinj : ∀ i j p, ctor i = .ok p → ctor j = .ok p → i = j) :
    TransientRun ctor
      ((Run.start (((ServiceDefinition.create T ctor).setShared false).setPersistent pe)).run
        ops) := by
  apply run_induction (fun _ r => TransientRun ctor r) _ ops hops
  · exact ⟨rfl, rfl, by simp [Run.start], by simp [Run.start],
      by simp [Run.start, ServiceDefinition.create, ServiceDefinition.setShared,
        ServiceDefinition.setPersistent],
      by simp [Run.start, ServiceDefinition.create, ServiceDefinition.setShared,
        ServiceDefinition.setPersistent]⟩
  · intro n r o _ ho h
    exact transientRun_step ctor hinj r o ho h

/-- C6. A fresh definition whose flags are set once, before any `get`, under
any sequence of fewer than `2^31 - 1` `get`s and releases. When the factory
never yields one address twice, the teardown closure has been invoked at most
once on each address. When the definition is shared and persistent, no release
invokes the teardown closure. When it is shared and not persistent, releasing a
live handle while another live handle holds the same address does not invoke
the teardown closure. -/
theorem teardown_safety (T : TypeInfo) (ctor : Construct) (sh pe : Bool) (ops : List Op)
    (hops : ∀ o ∈ ops, o.isRetrieval = true) (hlen : ops.length < 2 ^ 31 - 1) :
    ((∀ i j p, ctor i = .ok p → ctor j = .ok p → i = j) →
      ∀ p, ((Run.start (((ServiceDefinition.create T ctor).setShared sh).setPersistent pe)).run
        ops).definition.destructed.count p ≤ 1) ∧
    (sh = true → pe = true → ∀ i,
      (((Run.start (((ServiceDefinition.create T ctor).setShared sh).setPersistent pe)).run
        ops).step (.release i)).definition.destructed
      = ((Run.start (((ServiceDefinition.create T ctor).setShared sh).setPersistent pe)).run
        ops).definition.destructed) ∧
    (sh = true → pe = false → ∀ i j hi hj, i ≠ j →
      ((Run.start (((ServiceDefinition.create T ctor).setShared sh).setPersistent pe)).run
        ops).live i = true →
      ((Run.start (((ServiceDefinition.create T ctor).setShared sh).setPersistent pe)).run
        ops).live j = true →
      ((Run.start (((ServiceDefinition.create T ctor).setShared sh).setPersistent pe)).run
        ops).issued[i]? = some hi →
      ((Run.start (((ServiceDefinition.create T ctor).setShared sh).setPersistent pe)).run
        ops).issued[j]? = some hj →
      hi.ptr = hj.ptr →
      (((Run.start (((ServiceDefinition.create T ctor).setShared sh).setPersistent pe)).run
        ops).step (.release i)).definition.destructed
      = ((Run.start (((ServiceDefinition.create T ctor).setShared sh).setPersistent pe)).run
        ops).definition.destructed) := by
  refine ⟨?_, ?_, ?_⟩
  · intro hinj p
    cases sh with
    | false =>
      exact List.nodup_iff_count_le_one.1 (transientRun_run T ctor pe ops hops hinj).once p
    | true =>
      cases pe with
      | true => rw [(keptRun_run T ctor ops hops).destructed]; simp
      | false =>
        exact le_trans (List.count_le_length _ _) (countedRun_run T ctor ops hops hlen).once
  · rintro rfl rfl i
    have h := keptRun_run T ctor ops hops
    rw [h.destructed, (keptRun_step _ (.release i) rfl h).destructed]
  · rintro rfl rfl i j hi hj hij li lj gi _ _
    have h := countedRun_run T ctor ops hops hlen
    generalize (Run.start (((ServiceDefinition.create T ctor).setShared true).setPersistent
      false)).run ops = r at h li lj gi
    obtain ⟨li1, li2⟩ := live_iff.1 li
    obtain ⟨lj1, lj2⟩ := live_iff.1 lj
    have h2 := released_lt_two h.nodup h.bound li1 li2 lj1 lj2 hij
    have hc := h.counter
    rw [step_release_live gi li2]
    have hdel : hi.release r.definition = r.definition.destructShared hi.ptr := by
      simp [Handle.release, h.deleter hi (List.getElem?_mem gi)]
    have hgt : ¬ r.definition.referenceCounter ≤ 1 := by omega
    simp [hdel, ServiceDefinition.destructShared, h.persistent, hgt]

theorem teardown_safety_witness :
    ((Run.start (((ServiceDefinition.create "Engine" (allocating 100)).setShared
        true).setPersistent false)).run [.get, .get, .release 0, .release 1,
          .get]).definition.destructed.count 100 ≤ 1 ∧
    (((Run.start (((ServiceDefinition.create "Engine" (allocating 100)).setShared
        true).setPersistent false)).run [.get, .get]).step (.release 0)).definition.destructed
      = ((Run.start (((ServiceDefinition.create "Engine" (allocating 100)).setShared
        true).setPersistent false)).run [.get, .get]).definition.destructed :=
  ⟨(teardown_safety "Engine" (allocating 100) true false
      [.get, .get, .release 0, .release 1, .get] (by decide) (by decide)).1
      (fun i j p hi hj => by
        simp only [allocating, Except.ok.injEq] at hi hj
        exact Nat.add_left_cancel (hi.trans hj.symm)) 100,
   (teardown_safety "Engine" (allocating 100) true false [.get, .get] (by decide)
      (by decide)).2.2 rfl rfl 0 1 ⟨100, .destructShared⟩ ⟨100, .destructShared⟩ (by decide)
      (by decide) (by decide) (by decide) (by decide) rfl⟩

/-- Destroying a definition whose cached instance is `p`
passes `p` to a plain `delete` and does not invoke the teardown closure;
destroying a definition without cached instance does neither. -/
theorem destroy_deletes_without_teardown (d : ServiceDefinition) :
    (d.destroy).destructed = d.destructed ∧
    (d.sharedInstance ≠ nullptr → (d.destroy).deleted = d.deleted ++ [d.sharedInstance]) ∧
    (d.sharedInstance = nullptr → (d.destroy).deleted = d.deleted) := by
  unfold ServiceDefinition.destroy
  by_cases h : d.sharedInstance = nullptr <;> simp [h]

/-- C7, at the failing input. A container with one shared persistent
definition, retrieved once and then destroyed: the teardown closure of the
definition was never invoked, its object went to `delete`. -/
theorem container_destroy_skips_teardown :
    ((((Container.empty.registerService "Engine" "svc" (allocating 100)).get
        "Engine" "svc").2.destroy).definitions.map
          (fun e => (e.1, e.2.sharedInstance, e.2.destructed, e.2.deleted)))
      = [("svc", 100, [], [100])] := by
  decide

theorem getParameter_loaded {heap : Ptr → ParameterProvider} {c : Container} {name : String}
    (hl : c.parameterProvidersLoaded = true) :
    c.getParameter heap name =
      match c.parameterProviders.find? (fun provider => (heap provider.ptr).hasParameter name) with
      | none => (.error Container.noParameterProvider, c)
      | some p =>
        if p.ptr = nullptr then (.error Container.noParameterProvider, c)
        else ((heap p.ptr).getParameter name, c) := by
  simp [Container.getParameter, hl]

theorem find?_first {α : Type} (f : α → Bool) (pre : List α) (p : α) (post : List α)
    (hpre : ∀ q ∈ pre, f q = false) (hp : f p = true) :
    (pre ++ p :: post).find? f = some p := by
  induction pre with
  | nil => simp [hp]
  | cons a pre ih =>
    have ha : f a = false := hpre a (List.mem_cons_self _ _)
    simp only [List.cons_append, List.find?_cons, ha]
    exact ih (fun q hq => hpre q (List.mem_cons_of_mem _ hq))

theorem find?_agree {α : Type} (f g : α → Bool) (l : List α) (h : ∀ q ∈ l, f q = g q) :
    l.find? f = l.find? g := by
  induction l with
  | nil => rfl
  | cons a l ih =>
    simp only [List.find?_cons, h a (List.mem_cons_self _ _)]
    rw [ih (fun q hq => h q (List.mem_cons_of_mem _ hq))]

/-- C8. With the provider cache loaded and holding no null handle:
`getParameter(name)` is the `getParameter(name)` of the provider that has no
provider before it in the cache with `hasParameter(name)` true and has it true
itself, and leaves the container as it was; it throws the no-provider exception
when no cached provider has `hasParameter(name)` true, and, as long as no
provider throws that very exception itself, only then; the outcome depends on
no `getParameter` but the one of that first provider. -/
theorem getParameter_first_provider (heap : Ptr → ParameterProvider) (c : Container)
    (name : String) (hl : c.parameterProvidersLoaded = true)
    (hnn : ∀ h ∈ c.parameterProviders, h.ptr ≠ nullptr) :
    (∀ pre p post, c.parameterProviders = pre ++ p :: post →
      (∀ q ∈ pre, (heap q.ptr).hasParameter name = false) →
      (heap p.ptr).hasParameter name = true →
      c.getParameter heap name = ((heap p.ptr).getParameter name, c)) ∧
    ((∀ q ∈ c.parameterProviders, (heap q.ptr).hasParameter name = false) →
      c.getParameter heap name = (.error Container.noParameterProvider, c)) ∧
    ((∀ q ∈ c.parameterProviders,
        (heap q.ptr).getParameter name ≠ .error Container.noParameterProvider) →
      ((c.getParameter heap name).1 = .error Container.noParameterProvider ↔
        ∀ q ∈ c.parameterProviders, (heap q.ptr).hasParameter name = false)) ∧
    (∀ heap2 : Ptr → ParameterProvider,
      (∀ q ∈ c.parameterProviders,
        (heap2 q.ptr).hasParameter name = (heap q.ptr).hasParameter name) →
      (∀ p, c.parameterProviders.find? (fun q => (heap q.ptr).hasParameter name) = some p →
        (heap2 p.ptr).getParameter name = (heap p.ptr).getParameter name) →
      c.getParameter heap2 name = c.getParameter heap name) := by
  have hnone : (∀ q ∈ c.parameterProviders, (heap q.ptr).hasParameter name = false) →
      c.getParameter heap name = (.error Container.noParameterProvider, c) := by
    intro h
    rw [getParameter_loaded hl]
    have : c.parameterProviders.find? (fun q => (heap q.ptr).hasParameter name) = none := by
      rw [List.find?_eq_none]
      intro q hq
      simp [h q hq]
    rw [this]
  refine ⟨?_, hnone, ?_, ?_⟩
  · intro pre p post hc hpre hp
    rw [getParameter_loaded hl, hc,
      find?_first (fun q => (heap q.ptr).hasParameter name) pre p post hpre hp]
    have : p.ptr ≠ nullptr := hnn p (by rw [hc]; simp)
    simp [this]
  · intro hex
    constructor
    · intro herr q hq
      rw [getParameter_loaded hl] at herr
      cases hf : c.parameterProviders.find? (fun q => (heap q.ptr).hasParameter name) with
      | none =>
        rw [List.find?_eq_none] at hf
        simpa using hf q hq
      | some p =>
        have hp : p ∈ c.parameterProviders := List.mem_of_find?_eq_some hf
        rw [hf] at herr
        simp only [hnn p hp, if_false] at herr
        exact absurd herr (hex p hp)
    · intro h
      rw [hnone h]
  · intro heap2 hhas hget
    rw [getParameter_loaded hl, getParameter_loaded hl]
    have hfind : c.parameterProviders.find? (fun q => (heap2 q.ptr).hasParameter name)
        = c.parameterProviders.find? (fun q => (heap q.ptr).hasParameter name) := by
      exact find?_agree _ _ _ hhas
    rw [hfind]
    cases hf : c.parameterProviders.find? (fun q => (heap q.ptr).hasParameter name) with
    | none => rfl
    | some p => simp only [hget p hf]

theorem getParameter_first_provider_witness :
    loadedContainer.parameterProvidersLoaded = true ∧
    loadedContainer.parameterProviders = [⟨1, .destructShared⟩, ⟨2, .destructShared⟩] ∧
    (loadedContainer.getParameter twoProviders "a").1 = .ok ⟨"1"⟩ ∧
    (loadedContainer.getParameter twoProviders "b").1 = .ok ⟨"3"⟩ ∧
    (loadedContainer.getParameter twoProviders "c").1 = .error Container.noParameterProvider :=
  ⟨by decide, by decide,
   congrArg Prod.fst ((getParameter_first_provider twoProviders loadedContainer "a" (by decide)
      (by decide)).1 [] ⟨1, .destructShared⟩ [⟨2, .destructShared⟩] (by decide) (by decide)
      (by decide)),
   congrArg Prod.fst ((getParameter_first_provider twoProviders loadedContainer "b" (by decide)
      (by decide)).1 [⟨1, .destructShared⟩] ⟨2, .destructShared⟩ [] (by decide) (by decide)
      (by decide)),
   congrArg Prod.fst ((getParameter_first_provider twoProviders loadedContainer "c" (by decide)
      (by decide)).2.1 (by decide))⟩

/-! ## The map of definitions -/

theorem find_assign_same (m : Definitions) (name : String) (d : ServiceDefinition) :
    (m.assign name d).find name = some d := by
  induction m with
  | nil => simp [Definitions.assign, Definitions.find]
  | cons e m ih =>
    obtain ⟨k, v⟩ := e
    simp only [Definitions.assign]
    by_cases h1 : name = k
    · simp [h1, Definitions.find]
    · by_cases h2 : name.data < k.data
      · simp [h1, h2, Definitions.find]
      · simp [h1, h2, Definitions.find, ih]

theorem find_assign_ne (m : Definitions) (name k : String) (d : ServiceDefinition)
    (hk : k ≠ name) : (m.assign name d).find k = m.find k := by
  induction m with
  | nil => simp [Definitions.assign, Definitions.find, hk]
  | cons e m ih =>
    obtain ⟨k0, v⟩ := e
    simp only [Definitions.assign]
    by_cases h1 : name = k0
    · subst h1
      simp [Definitions.find, hk]
    · by_cases h2 : name.data < k0.data
      · simp [h1, h2, Definitions.find, hk]
      · simp only [h1, h2, if_false, Definitions.find, ih]

theorem find_of_mem {m : Definitions} (hm : m.ordered) {e : String × ServiceDefinition}
    (he : e ∈ m) : m.find e.1 = some e.2 := by
  induction m with
  | nil => cases he
  | cons a m ih =>
    obtain ⟨k, v⟩ := a
    have hm' := List.pairwise_cons.1 hm
    rcases List.mem_cons.1 he with rfl | he
    · simp [Definitions.find]
    · have hlt : k < e.1 := hm'.1 e he
      have hne : e.1 ≠ k := ne_of_gt hlt
      simp only [Definitions.find, hne, if_false]
      exact ih hm'.2 he

theorem mem_assign {m : Definitions} {name : String} {d : ServiceDefinition}
    {e : String × ServiceDefinition} (he : e ∈ m.assign name d) : e.1 = name ∨ e ∈ m := by
  induction m with
  | nil =>
    simp only [Definitions.assign, List.mem_singleton] at he
    left; rw [he]
  | cons a m ih =>
    obtain ⟨k, v⟩ := a
    simp only [Definitions.assign] at he
    by_cases h1 : name = k
    · simp only [h1, if_true] at he
      rcases List.mem_cons.1 he with rfl | he
      · left; exact h1.symm
      · right; exact List.mem_cons_of_mem _ he
    · by_cases h2 : name.data < k.data
      · simp only [h1, h2, if_true, if_false] at he
        rcases List.mem_cons.1 he with rfl | he
        · left; rfl
        · right; exact he
      · simp only [h1, h2, if_false] at he
        rcases List.mem_cons.1 he with rfl | he
        · right; exact List.mem_cons_self _ _
        · rcases ih he with h | h
          · left; exact h
          · right; exact List.mem_cons_of_mem _ h

theorem ordered_assign {m : Definitions} (hm : m.ordered) (name : String)
    (d : ServiceDefinition) : (m.assign name d).ordered := by
  induction m with
  | nil => simp [Definitions.assign, Definitions.ordered]
  | cons a m ih =>
    obtain ⟨k, v⟩ := a
    have hm' := List.pairwise_cons.1 hm
    simp only [Definitions.assign]
    by_cases h1 : name = k
    · simp only [h1, if_true]
      exact List.pairwise_cons.2 ⟨hm'.1, hm'.2⟩
    · by_cases h2 : name.data < k.data
      · simp only [h1, h2, if_true, if_false]
        have hlt : name < k := String.lt_iff_toList_lt.2 h2
        refine List.pairwise_cons.2 ⟨?_, hm⟩
        intro e he
        rcases List.mem_cons.1 he with rfl | he
        · exact hlt
        · exact lt_trans hlt (hm'.1 e he)
      · simp only [h1, h2, if_false]
        have hlt : k < name := by
          rcases lt_trichotomy name k with h | h | h
          · exact absurd (String.lt_iff_toList_lt.1 h) h2
          · exact absurd h h1
          · exact h
        refine List.pairwise_cons.2 ⟨?_, ih hm'.2⟩
        intro e he
        rcases mem_assign he with h | h
        · rw [h]; exact hlt
        · exact hm'.1 e h

theorem ordered_registerService {c : Container} (hc : c.definitions.ordered) (T : TypeInfo)
    (name : String) (ctor : Construct) : (c.registerService T name ctor).definitions.ordered :=
  ordered_assign hc name _

theorem ordered_onDefinition {c : Container} (hc : c.definitions.ordered) (name : String)
    (f : ServiceDefinition → ServiceDefinition) : (c.onDefinition name f).definitions.ordered := by
  unfold Container.onDefinition
  cases c.definitions.find name with
  | none => exact hc
  | some d => exact ordered_assign hc name _

theorem get_of_find {c : Container} {T : TypeInfo} {name : String} {d : ServiceDefinition}
    (hf : c.definitions.find name = some d) (hT : d.typeInfo = T) :
    c.get T name = ((d.get).1, { c with definitions := c.definitions.assign name (d.get).2 }) := by
  simp [Container.get, getServiceDefinition_ok hf hT]

theorem get_of_find_invalid {c : Container} {T : TypeInfo} {name : String}
    {d : ServiceDefinition} (hf : c.definitions.find name = some d) (hT : d.typeInfo ≠ T) :
    c.get T name = (.error (Container.invalidType name), c) := by
  simp [Container.get, getServiceDefinition_invalid hf hT]

theorem get_ok_of_factory {d : ServiceDefinition} (hf : ∀ k, ∃ p, d.constructor k = .ok p) :
    ∃ h, (d.get).1 = .ok h := by
  obtain ⟨p, hp⟩ := hf d.constructed
  by_cases hs : d.shared = true
  · by_cases hi : d.sharedInstance = nullptr
    · exact ⟨_, by simp [ServiceDefinition.get, ServiceDefinition.construct, hs, hi, hp]; rfl⟩
    · exact ⟨_, by simp [ServiceDefinition.get, hs, hi]; rfl⟩
  · have hs' : d.shared = false := by simpa using hs
    rw [get_transient hs', hp]
    exact ⟨_, rfl⟩

/-! ## Retrieval by tag -/

theorem hasTag_iff (d : ServiceDefinition) (t : String) : d.hasTag t = true ↔ t ∈ d.tags := by
  simp [ServiceDefinition.hasTag]

theorem tagScan_ok (T : TypeInfo) (t : String) (rest : Definitions) :
    ∀ (c : Container) (result : List (String × Handle)),
      Definitions.ordered rest →
      (∀ e ∈ rest, c.definitions.find e.1 = some e.2) →
      (∀ e ∈ rest, e.2.hasTag t = true → e.2.typeInfo = T) →
      (∀ e ∈ rest, e.2.hasTag t = true → ∀ k, ∃ p, e.2.constructor k = .ok p) →
      ∃ hs c2, Container.tagScan T t rest c result = (none, result ++ hs, c2) ∧
        hs.map (fun x => (x.1, Except.ok (ε := Exn) x.2))
          = (rest.filter (fun e => e.2.hasTag t)).map (fun e => (e.1, (e.2.get).1)) := by
  induction rest with
  | nil =>
    intro c result _ _ _ _
    exact ⟨[], c, by simp [Container.tagScan], rfl⟩
  | cons e rest ih =>
    intro c result ho hfind hT hf
    have ho' := List.pairwise_cons.1 ho
    by_cases ht : e.2.hasTag t = true
    · obtain ⟨h, hh⟩ := get_ok_of_factory (hf e (List.mem_cons_self _ _) ht)
      have hg := get_of_find (hfind e (List.mem_cons_self _ _)) (hT e (List.mem_cons_self _ _) ht)
      rw [hh] at hg
      have hfind' : ∀ e' ∈ rest,
          ({ c with definitions := c.definitions.assign e.1 (e.2.get).2 } :
            Container).definitions.find e'.1 = some e'.2 := by
        intro e' he'
        have hne : e'.1 ≠ e.1 := ne_of_gt (ho'.1 e' he')
        show (c.definitions.assign e.1 (e.2.get).2).find e'.1 = some e'.2
        rw [find_assign_ne _ _ _ _ hne]
        exact hfind e' (List.mem_cons_of_mem _ he')
      obtain ⟨hs, c2, h1, h2⟩ := ih _ (result ++ [(e.1, h)]) ho'.2 hfind'
        (fun e' he' => hT e' (List.mem_cons_of_mem _ he'))
        (fun e' he' => hf e' (List.mem_cons_of_mem _ he'))
      refine ⟨(e.1, h) :: hs, c2, ?_, ?_⟩
      · simp only [Container.tagScan, ht, if_true, hg]
        rw [h1]
        simp
      · simp only [List.filter_cons, ht, if_true, List.map_cons, h2, hh]
    · obtain ⟨hs, c2, h1, h2⟩ := ih c result ho'.2
        (fun e' he' => hfind e' (List.mem_cons_of_mem _ he'))
        (fun e' he' => hT e' (List.mem_cons_of_mem _ he'))
        (fun e' he' => hf e' (List.mem_cons_of_mem _ he'))
      refine ⟨hs, c2, ?_, ?_⟩
      · simp only [Container.tagScan, ht]
        exact h1
      · simp only [List.filter_cons, ht]
        exact h2

theorem tagScan_invalid (T : TypeInfo) (t : String) (rest : Definitions) :
    ∀ (c : Container) (result : List (String × Handle)),
      Definitions.ordered rest →
      (∀ e ∈ rest, c.definitions.find e.1 = some e.2) →
      (∀ e ∈ rest, e.2.hasTag t = true → ∀ k, ∃ p, e.2.constructor k = .ok p) →
      (∃ e ∈ rest, e.2.hasTag t = true ∧ e.2.typeInfo ≠ T) →
      ∃ e ∈ rest, e.2.hasTag t = true ∧ e.2.typeInfo ≠ T ∧
        ∃ result2 c2, Container.tagScan T t rest c result
          = (some (Container.invalidType e.1), result2, c2) := by
  induction rest with
  | nil =>
    intro c result _ _ _ hbad
    obtain ⟨e, he, _⟩ := hbad
    cases he
  | cons e rest ih =>
    intro c result ho hfind hf hbad
    have ho' := List.pairwise_cons.1 ho
    by_cases ht : e.2.hasTag t = true
    · by_cases hT : e.2.typeInfo = T
      · obtain ⟨h, hh⟩ := get_ok_of_factory (hf e (List.mem_cons_self _ _) ht)
        have hg := get_of_find (hfind e (List.mem_cons_self _ _)) hT
        rw [hh] at hg
        have hfind' : ∀ e' ∈ rest,
            ({ c with definitions := c.definitions.assign e.1 (e.2.get).2 } :
              Container).definitions.find e'.1 = some e'.2 := by
          intro e' he'
          have hne : e'.1 ≠ e.1 := ne_of_gt (ho'.1 e' he')
          show (c.definitions.assign e.1 (e.2.get).2).find e'.1 = some e'.2
          rw [find_assign_ne _ _ _ _ hne]
          exact hfind e' (List.mem_cons_of_mem _ he')
        have hbad' : ∃ e' ∈ rest, e'.2.hasTag t = true ∧ e'.2.typeInfo ≠ T := by
          obtain ⟨e', he', h1, h2⟩ := hbad
          rcases List.mem_cons.1 he' with rfl | he'
          · exact absurd hT h2
          · exact ⟨e', he', h1, h2⟩
        obtain ⟨b, hb, hb1, hb2, r2, c2, h1⟩ := ih _ (result ++ [(e.1, h)]) ho'.2 hfind'
          (fun e' he' => hf e' (List.mem_cons_of_mem _ he')) hbad'
        refine ⟨b, List.mem_cons_of_mem _ hb, hb1, hb2, r2, c2, ?_⟩
        simp only [Container.tagScan, ht, if_true, hg]
        exact h1
      · have hg := get_of_find_invalid (hfind e (List.mem_cons_self _ _)) hT
        exact ⟨e, List.mem_cons_self _ _, ht, hT, result, c,
          by simp only [Container.tagScan, ht, if_true, hg]⟩
    · have hbad' : ∃ e' ∈ rest, e'.2.hasTag t = true ∧ e'.2.typeInfo ≠ T := by
        obtain ⟨e', he', h1, h2⟩ := hbad
        rcases List.mem_cons.1 he' with rfl | he'
        · exact absurd h1 ht
        · exact ⟨e', he', h1, h2⟩
      obtain ⟨b, hb, hb1, hb2, r2, c2, h1⟩ := ih c result ho'.2
        (fun e' he' => hfind e' (List.mem_cons_of_mem _ he'))
        (fun e' he' => hf e' (List.mem_cons_of_mem _ he')) hbad'
      refine ⟨b, List.mem_cons_of_mem _ hb, hb1, hb2, r2, c2, ?_⟩
      simp only [Container.tagScan, ht]
      exact h1

theorem tag_ok {c : Container} {T : TypeInfo} {t : String} (ho : c.definitions.ordered)
    (hT : ∀ e ∈ c.definitions, t ∈ e.2.tags → e.2.typeInfo = T)
    (hf : ∀ e ∈ c.definitions, t ∈ e.2.tags → ∀ k, ∃ p, e.2.constructor k = .ok p) :
    ∃ hs, (c.tag T t).1 = .ok hs ∧
      hs.map (Except.ok (ε := Exn))
        = (c.definitions.filter (fun e => decide (t ∈ e.2.tags))).map
            (fun e => (c.get T e.1).1) := by
  obtain ⟨hs, c2, h1, h2⟩ := tagScan_ok T t c.definitions c [] ho
    (fun e he => find_of_mem ho he)
    (fun e he ht => hT e he ((hasTag_iff _ _).1 ht))
    (fun e he ht => hf e he ((hasTag_iff _ _).1 ht))
  refine ⟨hs.map Prod.snd, ?_, ?_⟩
  · simp [Container.tag, h1]
  · have hfilter : c.definitions.filter (fun e => decide (t ∈ e.2.tags))
        = c.definitions.filter (fun e => e.2.hasTag t) := by
      apply List.filter_congr
      intro e _
      simp [ServiceDefinition.hasTag]
    rw [hfilter]
    have h3 := congrArg (List.map Prod.snd) h2
    simp only [List.map_map] at h3
    rw [List.map_map]
    refine h3.trans ?_
    apply List.map_congr_left
    intro e he
    have hmem := (List.mem_filter.1 he)
    have hg := get_of_find (find_of_mem ho hmem.1) (hT e hmem.1 ((hasTag_iff _ _).1 hmem.2))
    simp [hg]

/-- C9. In a container where every definition tagged `t` has type `T` and a
factory that never throws, `tag<T>(t)` returns a vector of handles `hs` such
that: the outcomes of `get<T>` on the names of the definitions whose tags
contain `t`, taken in map order, are exactly the handles of `hs` in order (so
one handle per such definition, however often `t` was attached, and none for
other definitions); these names are the names under which a definition tagged
`t` is registered; and they are strictly ascending. -/
theorem tag_handles_in_key_order (c : Container) (T : TypeInfo) (t : String)
    (ho : c.definitions.ordered)
    (hT : ∀ e ∈ c.definitions, t ∈ e.2.tags → e.2.typeInfo = T)
    (hf : ∀ e ∈ c.definitions, t ∈ e.2.tags → ∀ k, ∃ p, e.2.constructor k = .ok p) :
    ∃ hs, (c.tag T t).1 = .ok hs ∧
      hs.map (Except.ok (ε := Exn))
        = ((c.definitions.filter (fun e => decide (t ∈ e.2.tags))).map Prod.fst).map
            (fun name => (c.get T name).1) ∧
      hs.length = (c.definitions.filter (fun e => decide (t ∈ e.2.tags))).length ∧
      (∀ name, name ∈ (c.definitions.filter (fun e => decide (t ∈ e.2.tags))).map Prod.fst ↔
        ∃ d, c.definitions.find name = some d ∧ t ∈ d.tags) ∧
      ((c.definitions.filter (fun e => decide (t ∈ e.2.tags))).map Prod.fst).Pairwise
        (fun a b => a < b) := by
  obtain ⟨hs, h1, h2⟩ := tag_ok ho hT hf
  refine ⟨hs, h1, ?_, ?_, ?_, ?_⟩
  · rw [h2, List.map_map]; rfl
  · have := congrArg List.length h2
    simpa using this
  · intro name
    constructor
    · intro hn
      obtain ⟨e, he, rfl⟩ := List.mem_map.1 hn
      obtain ⟨he1, he2⟩ := List.mem_filter.1 he
      exact ⟨e.2, find_of_mem ho he1, by simpa using he2⟩
    · rintro ⟨d, hd, ht⟩
      have hmem : ∀ (m : Definitions), m.find name = some d → (name, d) ∈ m := by
        intro m
        induction m with
        | nil => intro h; simp [Definitions.find] at h
        | cons a m ih =>
          obtain ⟨k, v⟩ := a
          intro h
          simp only [Definitions.find] at h
          by_cases hk : name = k
          · simp only [hk, if_true, Option.some.injEq] at h
            rw [hk, h]; exact List.mem_cons_self _ _
          · simp only [hk, if_false] at h
            exact List.mem_cons_of_mem _ (ih h)
      exact List.mem_map.2 ⟨(name, d), List.mem_filter.2 ⟨hmem _ hd, by simpa using ht⟩, rfl⟩
  · have hsub : (c.definitions.filter (fun e => decide (t ∈ e.2.tags))).Pairwise
        (fun a b => a.1 < b.1) := List.Pairwise.sublist (List.filter_sublist _) ho
    exact List.pairwise_map.2 hsub

theorem taggedContainer_ordered : taggedContainer.definitions.ordered := by
  unfold taggedContainer
  apply ordered_onDefinition
  apply ordered_registerService
  apply ordered_registerService
  apply ordered_onDefinition
  apply ordered_registerService
  exact List.Pairwise.nil

theorem taggedContainer_factories :
    ∀ e ∈ taggedContainer.definitions, ∀ k, ∃ p, e.2.constructor k = .ok p := by
  intro e he k
  have hd : taggedContainer.definitions.map (fun e => (e.2.constructor k).toOption)
      = [some (100 + k), some (200 + k), some (300 + k)] := by
    rfl
  have : (e.2.constructor k).toOption ∈
      taggedContainer.definitions.map (fun e => (e.2.constructor k).toOption) :=
    List.mem_map.2 ⟨e, he, rfl⟩
  rw [hd] at this
  cases hc : e.2.constructor k with
  | error x => simp [hc, Except.toOption] at this
  | ok p => exact ⟨p, rfl⟩

theorem tag_handles_in_key_order_witness :
    ∃ hs, (taggedContainer.tag "Engine" "x").1 = .ok hs ∧
      hs.map (Except.ok (ε := Exn))
        = ((taggedContainer.definitions.filter (fun e => decide ("x" ∈ e.2.tags))).map
            Prod.fst).map (fun name => (taggedContainer.get "Engine" name).1) ∧
      hs.length = 2 := by
  obtain ⟨hs, h1, h2, h3, _⟩ := tag_handles_in_key_order taggedContainer "Engine" "x"
    taggedContainer_ordered (by decide) (fun e he _ => taggedContainer_factories e he)
  exact ⟨hs, h1, h2, h3.trans (by decide)⟩

/-- C10. In a container whose factories of the definitions tagged `t` never
throw: `tag<T>(t)` throws an invalid-type exception exactly when some
definition whose tags contain `t` has another type token than `T`, and the
exception then names such a definition; when every definition whose tags
contain `t` has type `T`, `tag<T>(t)` returns, whatever the types of the
definitions that do not carry `t`. -/
theorem tag_invalid_type_iff (c : Container) (T : TypeInfo) (t : String)
    (ho : c.definitions.ordered)
    (hf : ∀ e ∈ c.definitions, t ∈ e.2.tags → ∀ k, ∃ p, e.2.constructor k = .ok p) :
    ((∃ name, (c.tag T t).1 = .error (Container.invalidType name)) ↔
      ∃ e ∈ c.definitions, t ∈ e.2.tags ∧ e.2.typeInfo ≠ T) ∧
    ((∃ e ∈ c.definitions, t ∈ e.2.tags ∧ e.2.typeInfo ≠ T) →
      ∃ e ∈ c.definitions, t ∈ e.2.tags ∧ e.2.typeInfo ≠ T ∧
        (c.tag T t).1 = .error (Container.invalidType e.1)) ∧
    ((∀ e ∈ c.definitions, t ∈ e.2.tags → e.2.typeInfo = T) →
      ∃ hs, (c.tag T t).1 = .ok hs) := by
  have hbad : (∃ e ∈ c.definitions, t ∈ e.2.tags ∧ e.2.typeInfo ≠ T) →
      ∃ e ∈ c.definitions, t ∈ e.2.tags ∧ e.2.typeInfo ≠ T ∧
        (c.tag T t).1 = .error (Container.invalidType e.1) := by
    rintro ⟨e, he, h1, h2⟩
    obtain ⟨b, hb, hb1, hb2, r2, c2, h⟩ := tagScan_invalid T t c.definitions c [] ho
      (fun e he => find_of_mem ho he)
      (fun e he ht => hf e he ((hasTag_iff _ _).1 ht))
      ⟨e, he, (hasTag_iff _ _).2 h1, h2⟩
    exact ⟨b, hb, (hasTag_iff _ _).1 hb1, hb2, by simp [Container.tag, h]⟩
  have hgood : (∀ e ∈ c.definitions, t ∈ e.2.tags → e.2.typeInfo = T) →
      ∃ hs, (c.tag T t).1 = .ok hs := by
    intro hT
    obtain ⟨hs, h, _⟩ := tag_ok ho hT hf
    exact ⟨hs, h⟩
  refine ⟨⟨?_, ?_⟩, hbad, hgood⟩
  · rintro ⟨name, hn⟩
    by_contra hno
    have hT : ∀ e ∈ c.definitions, t ∈ e.2.tags → e.2.typeInfo = T := by
      intro e he ht
      by_contra hne
      exact hno ⟨e, he, ht, hne⟩
    obtain ⟨hs, h⟩ := hgood hT
    rw [h] at hn
    cases hn
  · intro h
    obtain ⟨e, _, _, _, h'⟩ := hbad h
    exact ⟨e.1, h'⟩

theorem mixedContainer_ordered : mixedContainer.definitions.ordered :=
  ordered_onDefinition taggedContainer_ordered _ _

theorem mixedContainer_factories :
    ∀ e ∈ mixedContainer.definitions, ∀ k, ∃ p, e.2.constructor k = .ok p := by
  intro e he k
  have hd : mixedContainer.definitions.map (fun e => (e.2.constructor k).toOption)
      = [some (100 + k), some (200 + k), some (300 + k)] := by
    rfl
  have : (e.2.constructor k).toOption ∈
      mixedContainer.definitions.map (fun e => (e.2.constructor k).toOption) :=
    List.mem_map.2 ⟨e, he, rfl⟩
  rw [hd] at this
  cases hc : e.2.constructor k with
  | error x => simp [hc, Except.toOption] at this
  | ok p => exact ⟨p, rfl⟩

theorem tag_invalid_type_iff_witness :
    (∃ name, (mixedContainer.tag "Engine" "x").1 = .error (Container.invalidType name)) ∧
    (∃ hs, (taggedContainer.tag "Engine" "x").1 = .ok hs) :=
  ⟨(tag_invalid_type_iff mixedContainer "Engine" "x" mixedContainer_ordered
      (fun e he _ => mixedContainer_factories e he)).1.2 (by decide),
   (tag_invalid_type_iff taggedContainer "Engine" "x" taggedContainer_ordered
      (fun e he _ => taggedContainer_factories e he)).2.2 (by decide)⟩

/-! ## The provider cache -/

theorem getParameter_snd_of_loaded (heap : Ptr → ParameterProvider) (c : Container)
    (name : String) (hl : c.parameterProvidersLoaded = true) :
    (c.getParameter heap name).2 = c := by
  rw [getParameter_loaded hl]
  split
  · rfl
  · split <;> rfl

theorem getParameter_of_tag_ok (heap : Ptr → ParameterProvider) (c c1 : Container)
    (name : String) (hs : List Handle) (hl : c.parameterProvidersLoaded = false)
    (ht : c.tag typeidParameterProvider "di.parameter_provider" = (.ok hs, c1)) :
    c.getParameter heap name
      = Container.getParameter heap
          { c1 with parameterProviders := hs, parameterProvidersLoaded := true } name := by
  rw [@getParameter_loaded heap
    { c1 with parameterProviders := hs, parameterProvidersLoaded := true } name rfl]
  simp only [Container.getParameter, hl, ht]
  simp only [Bool.not_false, if_true]

theorem getParameter_of_tag_error (heap : Ptr → ParameterProvider) (c c1 : Container)
    (name : String) (x : Exn) (hl : c.parameterProvidersLoaded = false)
    (ht : c.tag typeidParameterProvider "di.parameter_provider" = (.error x, c1)) :
    c.getParameter heap name = (.error x, c1) := by
  simp only [Container.getParameter, hl, ht]
  simp only [Bool.not_false, if_true]

theorem getParameter_loads (heap : Ptr → ParameterProvider) (c : Container) (name : String)
    (h : c.parameterProvidersLoaded = true ∨
      ∃ hs, (c.tag typeidParameterProvider "di.parameter_provider").1 = .ok hs) :
    (c.getParameter heap name).2.parameterProvidersLoaded = true := by
  by_cases hl : c.parameterProvidersLoaded = true
  · rw [getParameter_snd_of_loaded heap c name hl]; exact hl
  · rcases h with h | ⟨hs, h⟩
    · exact absurd h hl
    · have hl' : c.parameterProvidersLoaded = false := by simpa using hl
      cases ht : c.tag typeidParameterProvider "di.parameter_provider" with
      | mk r c1 =>
        rw [ht] at h
        simp only at h
        subst h
        rw [getParameter_of_tag_ok heap c c1 name hs hl' ht, getParameter_snd_of_loaded _ _ _ rfl]

theorem getParameter_ok_loads (heap : Ptr → ParameterProvider) (c : Container) (name : String)
    (v : Parameter) (h : (c.getParameter heap name).1 = .ok v) :
    (c.getParameter heap name).2.parameterProvidersLoaded = true := by
  by_cases hl : c.parameterProvidersLoaded = true
  · exact getParameter_loads heap c name (Or.inl hl)
  · have hl' : c.parameterProvidersLoaded = false := by simpa using hl
    cases ht : c.tag typeidParameterProvider "di.parameter_provider" with
    | mk r c1 =>
      cases r with
      | error x =>
        rw [getParameter_of_tag_error heap c c1 name x hl' ht] at h
        cases h
      | ok hs => exact getParameter_loads heap c name (Or.inr ⟨hs, by rw [ht]⟩)

theorem getParameter_frame (heap : Ptr → ParameterProvider) (c : Container)
    (hl : c.parameterProvidersLoaded = true) (defs : Definitions) (name : String) :
    Container.getParameter heap { c with definitions := defs } name
      = ((c.getParameter heap name).1, { c with definitions := defs }) := by
  rw [getParameter_loaded hl, @getParameter_loaded heap { c with definitions := defs } name hl]
  simp only
  split
  · rfl
  · split <;> rfl

theorem getParameter_again (heap : Ptr → ParameterProvider) (c : Container) (name : String)
    (h : c.parameterProvidersLoaded = true ∨
      ∃ hs, (c.tag typeidParameterProvider "di.parameter_provider").1 = .ok hs) :
    (c.getParameter heap name).2.getParameter heap name = c.getParameter heap name := by
  by_cases hl : c.parameterProvidersLoaded = true
  · rw [getParameter_snd_of_loaded heap c name hl]
  · rcases h with h | ⟨hs, h⟩
    · exact absurd h hl
    · have hl' : c.parameterProvidersLoaded = false := by simpa using hl
      cases ht : c.tag typeidParameterProvider "di.parameter_provider" with
      | mk r c1 =>
        rw [ht] at h
        simp only at h
        subst h
        rw [getParameter_of_tag_ok heap c c1 name hs hl' ht, getParameter_snd_of_loaded _ _ _ rfl]

/-- C11. A call of `getParameter` that returns a value, or whose tag scan
does not throw (as when it fails because no provider matched), leaves the
provider cache loaded. From then on the cache stays what it is and the outcome
of `getParameter` is the same whatever becomes of the definitions: in
particular after a provider definition is registered and tagged as a
parameter provider. -/
theorem getParameter_ignores_later_registration (heap : Ptr → ParameterProvider)
    (c0 : Container) (first : String) :
    (∀ v, (c0.getParameter heap first).1 = .ok v →
      (c0.getParameter heap first).2.parameterProvidersLoaded = true) ∧
    ((c0.parameterProvidersLoaded = true ∨
        ∃ hs, (c0.tag typeidParameterProvider "di.parameter_provider").1 = .ok hs) →
      (c0.getParameter heap first).2.parameterProvidersLoaded = true) ∧
    ((c0.getParameter heap first).2.parameterProvidersLoaded = true →
      (∀ (T : TypeInfo) (name : String) (ctor : Construct) (later : String),
        ((((c0.getParameter heap first).2.registerService T name ctor).onDefinition name
            (fun d => d.tag "di.parameter_provider")).getParameter heap later).1
          = ((c0.getParameter heap first).2.getParameter heap later).1 ∧
        ((((c0.getParameter heap first).2.registerService T name ctor).onDefinition name
            (fun d => d.tag "di.parameter_provider")).getParameter heap later).2.parameterProviders
          = (c0.getParameter heap first).2.parameterProviders) ∧
      (∀ (defs : Definitions) (later : String),
        ({ (c0.getParameter heap first).2 with definitions := defs } : Container).getParameter
            heap later
          = (((c0.getParameter heap first).2.getParameter heap later).1,
              { (c0.getParameter heap first).2 with definitions := defs }))) := by
  refine ⟨fun v h => getParameter_ok_loads heap c0 first v h, getParameter_loads heap c0 first, ?_⟩
  intro hl
  generalize (c0.getParameter heap first).2 = c1 at hl
  refine ⟨?_, fun defs later => getParameter_frame heap c1 hl defs later⟩
  intro T name ctor later
  have e : (c1.registerService T name ctor).onDefinition name
      (fun d => d.tag "di.parameter_provider")
      = { c1 with definitions := ((c1.registerService T name ctor).onDefinition name
          (fun d => d.tag "di.parameter_provider")).definitions } := by
    simp only [Container.onDefinition, Container.registerService]
    split <;> rfl
  rw [e, getParameter_frame heap c1 hl]
  exact ⟨rfl, rfl⟩

theorem getParameter_ignores_later_registration_witness :
    (providerContainer.getParameter twoProviders "c").1 = .error Container.noParameterProvider ∧
    (((((providerContainer.getParameter twoProviders "c").2.registerService
        typeidParameterProvider "p0" (allocating 2)).onDefinition "p0"
          (fun d => d.tag "di.parameter_provider")).getParameter twoProviders "a").1
      = ((providerContainer.getParameter twoProviders "c").2.getParameter twoProviders "a").1) ∧
    ((providerContainer.getParameter twoProviders "c").2.getParameter twoProviders "a").1
      = .ok ⟨"1"⟩ :=
  ⟨by decide,
   ((getParameter_ignores_later_registration twoProviders providerContainer "c").2.2
      (by decide)).1 typeidParameterProvider "p0" (allocating 2) "a" |>.1,
   by decide⟩

/-- C12, as stated, fails. In `flakyContainer` the first call throws what the
factory threw and the second call returns a value. In `mistaggedContainer`
both calls throw the same invalid-type exception, the first leaves the cache
unloaded and the second runs the scan again: it invokes the factory of `"a"`
once more. -/
theorem getParameter_twice_rescans :
    (flakyContainer.getParameter twoProviders "a").1 = .error (.foreign "not ready") ∧
    ((flakyContainer.getParameter twoProviders "a").2.getParameter twoProviders "a").1
      = .ok ⟨"1"⟩ ∧
    (mistaggedContainer.getParameter twoProviders "a").1
      = .error (Container.invalidType "b") ∧
    ((mistaggedContainer.getParameter twoProviders "a").2.getParameter twoProviders "a").1
      = .error (Container.invalidType "b") ∧
    (mistaggedContainer.getParameter twoProviders "a").2.parameterProvidersLoaded = false ∧
    (mistaggedContainer.getParameter twoProviders "a").2.definitions.map
        (fun e => (e.1, e.2.constructed)) = [("a", 1), ("b", 0)] ∧
    ((mistaggedContainer.getParameter twoProviders "a").2.getParameter
        twoProviders "a").2.definitions.map
        (fun e => (e.1, e.2.constructed)) = [("a", 2), ("b", 0)] := by
  decide

/-- C12, amended. When the provider cache is loaded, or the tag scan of the
first call does not throw, two calls of `getParameter(name)` in a row have the
same outcome; the first leaves the cache loaded, and the second leaves the
container as it found it and has that outcome whatever the definitions are. -/
theorem getParameter_twice (heap : Ptr → ParameterProvider) (c : Container) (name : String)
    (h : c.parameterProvidersLoaded = true ∨
      ∃ hs, (c.tag typeidParameterProvider "di.parameter_provider").1 = .ok hs) :
    ((c.getParameter heap name).2.getParameter heap name).1 = (c.getParameter heap name).1 ∧
    (c.getParameter heap name).2.parameterProvidersLoaded = true ∧
    ((c.getParameter heap name).2.getParameter heap name).2 = (c.getParameter heap name).2 ∧
    (∀ defs : Definitions,
      ({ (c.getParameter heap name).2 with definitions := defs } : Container).getParameter
          heap name
        = ((c.getParameter heap name).1,
            { (c.getParameter heap name).2 with definitions := defs })) := by
  have hl := getParameter_loads heap c name h
  have hagain := getParameter_again heap c name h
  refine ⟨by rw [hagain], hl, by rw [hagain], fun defs => ?_⟩
  rw [getParameter_frame heap _ hl defs name, hagain]

theorem getParameter_twice_witness :
    ((providerContainer.getParameter twoProviders "b").2.getParameter twoProviders "b").1
      = (providerContainer.getParameter twoProviders "b").1 ∧
    (providerContainer.getParameter twoProviders "b").1 = .ok ⟨"3"⟩ ∧
    (providerContainer.getParameter twoProviders "b").2.parameterProvidersLoaded = true :=
  ⟨(getParameter_twice twoProviders providerContainer "b"
      (Or.inr ⟨[⟨1, .destructShared⟩, ⟨2, .destructShared⟩], by decide⟩)).1,
   by decide,
   (getParameter_twice twoProviders providerContainer "b"
      (Or.inr ⟨[⟨1, .destructShared⟩, ⟨2, .destructShared⟩], by decide⟩)).2.1⟩

/-- C13, at the failing input. The container built from the bundled
bootstrap holds the definition `"fuze.parameter_provider.env"` under the tag
`"fuze.parameter_provider"`, which is not the tag `getParameter` scans for: the
first `getParameter` loads an empty provider cache without retrieving from the
definition, and throws the no-provider exception for a parameter the provider
object would have. -/
theorem env_bootstrap_not_cached :
    envContainer.definitions.map (fun e => (e.1, e.2.tags))
      = [("fuze.parameter_provider.env", ["fuze.parameter_provider"])] ∧
    envContainer.definitions.map (fun e => e.2.hasTag "di.parameter_provider") = [false] ∧
    (envContainer.getParameter twoProviders "a").2.parameterProvidersLoaded = true ∧
    (envContainer.getParameter twoProviders "a").2.parameterProviders = [] ∧
    (envContainer.getParameter twoProviders "a").2.definitions.map
      (fun e => e.2.constructed) = [0] ∧
    (envContainer.getParameter twoProviders "a").1 = .error Container.noParameterProvider ∧
    (twoProviders 1).hasParameter "a" = true := by
  decide

/-- C14. After `registerService<T>(name)` the definition under `name` is a
fresh one: shared, persistent, without tags, without cached instance, counter
0, nothing torn down; whatever was under `name` is gone, and the lookup of any
other name and the provider cache are as before. A `get<T>(name)` then throws
neither lookup exception: it is the `get` of the fresh definition, which
invokes the factory once and, when the factory yields `p`, returns a handle
on `p` with no teardown and no `delete` recorded for the definition. -/
theorem registerService_fresh (c : Container) (T : TypeInfo) (name : String)
    (ctor : Construct) :
    (c.registerService T name ctor).definitions.find name
      = some (ServiceDefinition.create T ctor) ∧
    (ServiceDefinition.create T ctor).shared = true ∧
    (ServiceDefinition.create T ctor).persistent = true ∧
    (ServiceDefinition.create T ctor).tags = [] ∧
    (ServiceDefinition.create T ctor).sharedInstance = nullptr ∧
    (ServiceDefinition.create T ctor).referenceCounter = 0 ∧
    (∀ other, other ≠ name →
      (c.registerService T name ctor).definitions.find other = c.definitions.find other) ∧
    (c.registerService T name ctor).parameterProvidersLoaded = c.parameterProvidersLoaded ∧
    (c.registerService T name ctor).parameterProviders = c.parameterProviders ∧
    (c.registerService T name ctor).getServiceDefinition T name
      = .ok (ServiceDefinition.create T ctor) ∧
    ((c.registerService T name ctor).get T name).1
      = ((ServiceDefinition.create T ctor).get).1 ∧
    (∀ p, ctor 0 = .ok p →
      ((c.registerService T name ctor).get T name).1 = .ok ⟨p, .destructShared⟩ ∧
      ((c.registerService T name ctor).get T name).2.definitions.find name
        = some { ServiceDefinition.create T ctor with
                  sharedInstance := p, constructed := 1 }) ∧
    (∀ e, ctor 0 = .error e →
      ((c.registerService T name ctor).get T name).1 = .error e) := by
  have hfind : (c.registerService T name ctor).definitions.find name
      = some (ServiceDefinition.create T ctor) := find_assign_same _ _ _
  have hget := @get_of_find (c.registerService T name ctor) T name _ hfind rfl
  refine ⟨hfind, rfl, rfl, rfl, rfl, rfl, ?_, rfl, rfl, getServiceDefinition_ok hfind rfl,
    by rw [hget], ?_, ?_⟩
  · intro other ho
    exact find_assign_ne _ _ _ _ ho
  · intro p hp
    have e : (ServiceDefinition.create T ctor).get
        = (.ok ⟨p, .destructShared⟩,
            { ServiceDefinition.create T ctor with sharedInstance := p, constructed := 1 }) := by
      have := @get_empty_persistent (ServiceDefinition.create T ctor) p rfl rfl rfl hp
      rw [this]; rfl
    rw [hget, e]
    exact ⟨rfl, find_assign_same _ _ _⟩
  · intro e he
    rw [hget]
    simp [ServiceDefinition.get, ServiceDefinition.construct, ServiceDefinition.create, he]

theorem registerService_fresh_witness :
    ((taggedContainer.registerService "Logger" "a" (allocating 7)).get "Logger" "a").1
      = .ok ⟨7, .destructShared⟩ ∧
    (taggedContainer.registerService "Logger" "a" (allocating 7)).definitions.find "b"
      = taggedContainer.definitions.find "b" :=
  ⟨((registerService_fresh taggedContainer "Logger" "a"
      (allocating 7)).2.2.2.2.2.2.2.2.2.2.2.1 7 rfl).1,
   (registerService_fresh taggedContainer "Logger" "a"
      (allocating 7)).2.2.2.2.2.2.1 "b" (by decide)⟩

/-- C15. When `get` invokes the factory (the definition is not shared, or
its cache is empty) and the factory throws `e`, then `get` throws `e` and
every member of the definition is what it was: tags, type, cached instance,
counter and flags; nothing is torn down; only the invocation of the factory
is on record. -/
theorem get_factory_failure (d : ServiceDefinition) (e : Exn)
    (hcall : d.shared = false ∨ d.sharedInstance = nullptr)
    (he : d.constructor d.constructed = .error e) :
    (d.get).1 = .error e ∧
    (d.get).2 = { d with constructed := d.constructed + 1 } ∧
    (d.get).2.sharedInstance = d.sharedInstance ∧
    (d.get).2.referenceCounter = d.referenceCounter ∧
    (d.get).2.shared = d.shared ∧
    (d.get).2.persistent = d.persistent ∧
    (d.get).2.tags = d.tags ∧
    (d.get).2.destructed = d.destructed ∧
    (d.get).2.deleted = d.deleted := by
  have key : d.get = (.error e, { d with constructed := d.constructed + 1 }) := by
    by_cases hs : d.shared = true
    · rcases hcall with h | h
      · rw [hs] at h; cases h
      · simp [ServiceDefinition.get, ServiceDefinition.construct, hs, h, he]
    · have hs' : d.shared = false := by simpa using hs
      rw [get_transient hs', he]
  rw [key]
  exact ⟨rfl, rfl, rfl, rfl, rfl, rfl, rfl, rfl, rfl⟩

theorem get_factory_failure_witness :
    (((ServiceDefinition.create "Engine" failingOnce).setPersistent false).get).1
      = .error (.foreign "not ready") ∧
    (((ServiceDefinition.create "Engine" failingOnce).setPersistent false).get).2.sharedInstance
      = nullptr ∧
    (((ServiceDefinition.create "Engine" failingOnce).setPersistent false).get).2.referenceCounter
      = 0 :=
  ⟨(get_factory_failure ((ServiceDefinition.create "Engine" failingOnce).setPersistent false)
      (.foreign "not ready") (Or.inr rfl) rfl).1,
   (get_factory_failure ((ServiceDefinition.create "Engine" failingOnce).setPersistent false)
      (.foreign "not ready") (Or.inr rfl) rfl).2.2.1,
   (get_factory_failure ((ServiceDefinition.create "Engine" failingOnce).setPersistent false)
      (.foreign "not ready") (Or.inr rfl) rfl).2.2.2.1⟩

/-! ## Conversions of `Parameter` -/

theorem digitChar_isdigit :
    ∀ d, d < 10 → isdigit (Nat.digitChar d) = true ∧ (Nat.digitChar d).toNat - 48 = d := by
  decide

theorem isdigit_not_special {c : Char} (h : isdigit c = true) :
    isspace c = false ∧ c ≠ '-' ∧ c ≠ '+' ∧ c ≠ Char.ofNat 0 := by
  have hne : ∀ x : Char, isdigit x = false → c ≠ x := by
    intro x hx e
    rw [e, hx] at h
    cases h
  refine ⟨?_, hne _ (by decide), hne _ (by decide), hne _ (by decide)⟩
  simp only [isspace, Bool.or_eq_false_iff, decide_eq_false_iff_not]
  exact ⟨⟨⟨⟨⟨hne _ (by decide), hne _ (by decide)⟩, hne _ (by decide)⟩, hne _ (by decide)⟩,
    hne _ (by decide)⟩, hne _ (by decide)⟩

theorem strtolDigits_snoc (L : List Char) (hL : ∀ c ∈ L, isdigit c = true) (d : Char)
    (hd : isdigit d = true) :
    ∀ acc, strtolDigits acc (L ++ [d]) = strtolDigits acc L * 10 + (d.toNat - 48) := by
  induction L with
  | nil => intro acc; simp [strtolDigits, hd]
  | cons c L ih =>
    intro acc
    have hc := hL c (List.mem_cons_self _ _)
    simp only [List.cons_append, strtolDigits, hc, if_true]
    exact ih (fun x hx => hL x (List.mem_cons_of_mem _ hx)) _

theorem toDigitsCore_value (fuel : Nat) :
    ∀ n ds, n < fuel → ∃ L, Nat.toDigitsCore 10 fuel n ds = L ++ ds ∧ L ≠ [] ∧
      (∀ c ∈ L, isdigit c = true) ∧ strtolDigits 0 L = n := by
  induction fuel with
  | zero => intro n ds h; omega
  | succ fuel ih =>
    intro n ds hn
    have hd := digitChar_isdigit (n % 10) (Nat.mod_lt _ (by decide))
    by_cases h0 : n / 10 = 0
    · refine ⟨[Nat.digitChar (n % 10)], by simp [Nat.toDigitsCore, h0], by simp, ?_, ?_⟩
      · intro c hc
        rw [List.mem_singleton] at hc
        rw [hc]; exact hd.1
      · simp only [strtolDigits, hd.1, if_true, hd.2]
        omega
    · obtain ⟨L, h1, _, h3, h4⟩ := ih (n / 10) (Nat.digitChar (n % 10) :: ds) (by omega)
      refine ⟨L ++ [Nat.digitChar (n % 10)], ?_, by simp, ?_, ?_⟩
      · simp only [Nat.toDigitsCore, h0, if_false, h1, List.append_assoc, List.singleton_append]
      · intro c hc
        rcases List.mem_append.1 hc with hc | hc
        · exact h3 c hc
        · rw [List.mem_singleton] at hc
          rw [hc]; exact hd.1
      · rw [strtolDigits_snoc L h3 _ hd.1, h4, hd.2]
        omega

theorem toDigits_value (n : Nat) :
    (Nat.toDigits 10 n) ≠ [] ∧ (∀ c ∈ Nat.toDigits 10 n, isdigit c = true) ∧
      strtolDigits 0 (Nat.toDigits 10 n) = n := by
  obtain ⟨L, h1, h2, h3, h4⟩ := toDigitsCore_value (n + 1) n [] (Nat.lt_succ_self n)
  rw [List.append_nil] at h1
  unfold Nat.toDigits
  rw [h1]
  exact ⟨h2, h3, h4⟩

theorem takeWhile_digits (L : List Char) (hL : ∀ c ∈ L, isdigit c = true) :
    L.takeWhile (fun c => c ≠ Char.ofNat 0) = L := by
  rw [List.takeWhile_eq_self_iff]
  intro c hc
  simpa using (isdigit_not_special (hL c hc)).2.2.2

theorem strtol10_digits (L : List Char) (hne : L ≠ []) (hL : ∀ c ∈ L, isdigit c = true) :
    strtol10 L = (strtolDigits 0 L : Int) := by
  cases L with
  | nil => exact absurd rfl hne
  | cons c tl =>
    have hc := isdigit_not_special (hL c (List.mem_cons_self _ _))
    have hd : (c :: tl).dropWhile isspace = c :: tl := by
      simp [List.dropWhile, hc.1]
    unfold strtol10
    rw [hd]
    split
    · rename_i rest heq
      exact absurd (List.cons.inj heq).1 hc.2.1
    · rename_i rest heq
      exact absurd (List.cons.inj heq).1 hc.2.2.1
    · rfl

theorem strtol10_minus (L : List Char) :
    strtol10 ('-' :: L) = - (strtolDigits 0 L : Int) := by
  have hd : ('-' :: L).dropWhile isspace = '-' :: L := by
    have : isspace '-' = false := by decide
    simp [List.dropWhile, this]
  unfold strtol10
  rw [hd]
  split
  · rename_i rest heq
    rw [(List.cons.inj heq).2]
  · rename_i rest heq
    exact absurd (List.cons.inj heq).1 (by decide)
  · rename_i hno _
    exact absurd rfl (hno L)

theorem toInt_natRepr (m : Nat) (h : (m : Int) < 2 ^ 31) :
    (Parameter.mk (Nat.repr m)).toInt = m := by
  obtain ⟨h1, h2, h3⟩ := toDigits_value m
  have hdata : (Nat.repr m).data = Nat.toDigits 10 m := rfl
  simp only [Parameter.toInt, c_str, hdata, atoi]
  rw [takeWhile_digits _ h2, strtol10_digits _ h1 h2, h3]
  apply wrapInt_of_bounds <;> omega

theorem toInt_minus_natRepr (m : Nat) (h : (m : Int) ≤ 2 ^ 31) :
    (Parameter.mk ("-" ++ Nat.repr m)).toInt = - (m : Int) := by
  obtain ⟨h1, h2, h3⟩ := toDigits_value m
  have hdata : ("-" ++ Nat.repr m).data = '-' :: Nat.toDigits 10 m := rfl
  simp only [Parameter.toInt, c_str, hdata, atoi]
  have ht : ('-' :: Nat.toDigits 10 m).takeWhile (fun c => c ≠ Char.ofNat 0)
      = '-' :: Nat.toDigits 10 m := by
    have hm : (decide ('-' ≠ Char.ofNat 0)) = true := by decide
    rw [List.takeWhile_cons, if_pos hm, takeWhile_digits _ h2]
  rw [ht, strtol10_minus, h3]
  apply wrapInt_of_bounds <;> omega

theorem strtolDigits_no_digit (L : List Char)
    (h : ∀ c, L.head? = some c → isdigit c = false) : strtolDigits 0 L = 0 := by
  cases L with
  | nil => rfl
  | cons c tl =>
    have := h c rfl
    simp [strtolDigits, this]

theorem head_takeWhile (p : Char → Bool) (L : List Char) (c : Char)
    (h : (L.takeWhile p).head? = some c) : L.head? = some c := by
  cases L with
  | nil => simp at h
  | cons a tl =>
    rw [List.takeWhile_cons] at h
    by_cases ha : p a = true
    · rw [if_pos ha] at h; exact h
    · rw [if_neg ha] at h; simp at h

theorem strtol10_start (L : List Char)
    (h : ∀ c, L.head? = some c →
      isdigit c = false ∧ isspace c = false ∧ c ≠ '+' ∧ c ≠ '-') : strtol10 L = 0 := by
  have hz := strtolDigits_no_digit L (fun c hc => (h c hc).1)
  have hd : L.dropWhile isspace = L := by
    cases L with
    | nil => rfl
    | cons c tl => simp [List.dropWhile, (h c rfl).2.1]
  unfold strtol10
  rw [hd]
  split
  · exact absurd rfl ((h '-' rfl).2.2.2)
  · exact absurd rfl ((h '+' rfl).2.2.1)
  · rw [hz]; rfl

theorem strtol10_plus (L : List Char) :
    strtol10 ('+' :: L) = (strtolDigits 0 L : Int) := by
  have hd : ('+' :: L).dropWhile isspace = '+' :: L := by
    have : isspace '+' = false := by decide
    simp [List.dropWhile, this]
  unfold strtol10
  rw [hd]
  split
  · rename_i rest heq
    exact absurd (List.cons.inj heq).1 (by decide)
  · rename_i rest heq
    rw [(List.cons.inj heq).2]
  · rename_i _ hno
    exact absurd rfl (hno L)

theorem strtol10_skip (ws L : List Char) (hws : ∀ c ∈ ws, isspace c = true) :
    strtol10 (ws ++ L) = strtol10 L := by
  unfold strtol10
  rw [List.dropWhile_append_of_pos hws]

theorem strtol10_no_digit (ws sign rest : List Char)
    (hws : ∀ c ∈ ws, isspace c = true)
    (hsign : sign = [] ∨ sign = ['+'] ∨ sign = ['-'])
    (hrest : ∀ c, rest.head? = some c →
      isdigit c = false ∧ (sign = [] → isspace c = false ∧ c ≠ '+' ∧ c ≠ '-')) :
    strtol10 ((ws ++ sign ++ rest).takeWhile (fun c => c ≠ Char.ofNat 0)) = 0 := by
  have hnul : ∀ c, isspace c = true → (decide (c ≠ Char.ofNat 0)) = true := by
    intro c hc
    rw [decide_eq_true_iff]
    intro e
    rw [e] at hc
    exact absurd hc (by decide)
  have hrest' : ∀ c, (rest.takeWhile (fun c => c ≠ Char.ofNat 0)).head? = some c →
      isdigit c = false ∧ (sign = [] → isspace c = false ∧ c ≠ '+' ∧ c ≠ '-') :=
    fun c hc => hrest c (head_takeWhile _ _ _ hc)
  rw [List.append_assoc, List.takeWhile_append_of_pos (fun c hc => hnul c (hws c hc)),
    strtol10_skip _ _ hws]
  rcases hsign with rfl | rfl | rfl
  · rw [List.nil_append]
    apply strtol10_start
    intro c hc
    exact ⟨(hrest' c hc).1, (hrest' c hc).2 rfl⟩
  · have hm : (decide ('+' ≠ Char.ofNat 0)) = true := by decide
    rw [List.singleton_append, List.takeWhile_cons, if_pos hm, strtol10_plus,
      strtolDigits_no_digit _ (fun c hc => (hrest' c hc).1)]
    rfl
  · have hm : (decide ('-' ≠ Char.ofNat 0)) = true := by decide
    rw [List.singleton_append, List.takeWhile_cons, if_pos hm, strtol10_minus,
      strtolDigits_no_digit _ (fun c hc => (hrest' c hc).1)]
    rfl

/-- C16. The text of `Parameter(s)` is `s`, and the text of `Parameter()` is
empty. When `s` is white space, then at most one sign, then something that
does not start with a decimal digit (nor, without a sign, with white space or
a sign), `Parameter(s)` converts to the `int` 0 and to the `long` 0. When `s`
is the decimal literal of an integer `n` of the `int` range, `Parameter(s)`
converts to the `int` `n`. -/
theorem parameter_conversions :
    (∀ s : String, (Parameter.mk s).toStdString = s) ∧
    Parameter.default.toStdString = "" ∧
    (∀ (s : String) (ws sign rest : List Char),
      s.data = ws ++ sign ++ rest →
      (∀ c ∈ ws, isspace c = true) →
      (sign = [] ∨ sign = ['+'] ∨ sign = ['-']) →
      (∀ c, rest.head? = some c →
        isdigit c = false ∧ (sign = [] → isspace c = false ∧ c ≠ '+' ∧ c ≠ '-')) →
      (Parameter.mk s).toInt = 0 ∧ (Parameter.mk s).toLong = 0) ∧
    (∀ n : Int, -2 ^ 31 ≤ n → n < 2 ^ 31 → (Parameter.mk (toString n)).toInt = n) := by
  refine ⟨fun s => rfl, rfl, ?_, ?_⟩
  · intro s ws sign rest hs hws hsign hrest
    have h := strtol10_no_digit ws sign rest hws hsign hrest
    simp only [Parameter.toInt, Parameter.toLong, atoi, atol, c_str, hs, h]
    exact ⟨by decide, by decide⟩
  · intro n h1 h2
    cases n with
    | ofNat m =>
      exact toInt_natRepr m h2
    | negSucc m =>
      have e : toString (Int.negSucc m) = "-" ++ Nat.repr (m + 1) := rfl
      have e2 : Int.negSucc m = -((m + 1 : Nat) : Int) := rfl
      rw [e2] at h1
      rw [e, toInt_minus_natRepr (m + 1) (by omega)]
      rfl

theorem parameter_conversions_witness :
    (Parameter.mk "  +x1").toInt = 0 ∧ (Parameter.mk "  +x1").toLong = 0 ∧
    (Parameter.mk "").toInt = 0 ∧
    (Parameter.mk (toString (-2147483648 : Int))).toInt = -2147483648 ∧
    (Parameter.mk (toString (2024 : Int))).toInt = 2024 :=
  ⟨(parameter_conversions.2.2.1 "  +x1" [' ', ' '] ['+'] ['x', '1'] (by decide) (by decide)
      (by decide) (by decide)).1,
   (parameter_conversions.2.2.1 "  +x1" [' ', ' '] ['+'] ['x', '1'] (by decide) (by decide)
      (by decide) (by decide)).2,
   (parameter_conversions.2.2.1 "" [] [] [] (by decide) (by decide) (by decide)
      (by decide)).1,
   parameter_conversions.2.2.2 (-2147483648) (by decide) (by decide),
   parameter_conversions.2.2.2 2024 (by decide) (by decide)⟩

/-! ## The reference counter -/

theorem run_induction_any (P : Nat → Run → Prop) (r0 : Run) (ops : List Op) (h0 : P 0 r0)
    (hstep : ∀ n r o, n < ops.length → P n r → P (n + 1) (r.step o)) :
    P ops.length (r0.run ops) := by
  have key : ∀ k, k ≤ ops.length → P k (r0.run (ops.take k)) := by
    intro k
    induction k with
    | zero => intro _; simpa [Run.run] using h0
    | succ k ih =>
      intro hk
      have hlt : k < ops.length := hk
      have e : ops.take (k + 1) = ops.take k ++ [ops[k]] := by
        rw [List.take_succ, List.getElem?_eq_getElem hlt]; rfl
      rw [e, run_snoc]
      exact hstep k _ _ hlt (ih (Nat.le_of_lt hlt))
  simpa using key ops.length le_rfl

theorem get_counter (d : ServiceDefinition) :
    (d.get).2.referenceCounter = d.referenceCounter ∨
    (d.get).2.referenceCounter = wrapInt (d.referenceCounter + 1) := by
  by_cases hs : d.shared = true
  · by_cases hp : d.persistent = true
    · rcases get_kept hs hp with ⟨e, he⟩ | ⟨p, he⟩ | he <;> rw [he] <;> exact Or.inl rfl
    · have hp' : d.persistent = false := by simpa using hp
      rcases get_refcounted hs hp' with ⟨e, he⟩ | ⟨p, he⟩ | he <;> rw [he]
      · exact Or.inl rfl
      · exact Or.inr rfl
      · exact Or.inr rfl
  · have hs' : d.shared = false := by simpa using hs
    rw [get_transient hs']
    exact Or.inl rfl

theorem release_counter (h : Handle) (d : ServiceDefinition) :
    (h.release d).referenceCounter = d.referenceCounter ∨
    (1 < d.referenceCounter ∧
      (h.release d).referenceCounter = wrapInt (d.referenceCounter - 1)) := by
  cases hd : h.deleter with
  | destructor => left; simp [Handle.release, hd, ServiceDefinition.destruct]
  | destructShared =>
    simp only [Handle.release, hd, ServiceDefinition.destructShared]
    by_cases hp : d.persistent = true
    · left; simp [hp]
    · have hp' : d.persistent = false := by simpa using hp
      by_cases hle : d.referenceCounter ≤ 1
      · left; simp [hp', hle, ServiceDefinition.destruct]
      · right
        exact ⟨by omega, by simp [hp', hle]⟩

theorem counter_bounds (N : Nat) (hN : N < 2 ^ 31 - 1) (n : Nat) (r : Run) (o : Op)
    (hn : n < N)
    (h : 0 ≤ r.definition.referenceCounter ∧ r.definition.referenceCounter ≤ n) :
    0 ≤ (r.step o).definition.referenceCounter ∧
      (r.step o).definition.referenceCounter ≤ (n + 1 : Nat) := by
  obtain ⟨h0, h1⟩ := h
  cases o with
  | get =>
    have hw : wrapInt (r.definition.referenceCounter + 1) = r.definition.referenceCounter + 1 := by
      apply wrapInt_of_bounds <;> omega
    have hc := get_counter r.definition
    rw [hw] at hc
    have e : (r.step .get).definition = (r.definition.get).2 := by
      simp only [Run.step]
      split <;> rename_i heq <;> rw [heq]
    rw [e]
    push_cast
    rcases hc with hc | hc <;> rw [hc] <;> omega
  | release i =>
    cases hg : r.issued[i]? with
    | none => rw [step_release_none hg]; push_cast; omega
    | some h =>
      by_cases hr : i ∈ r.released
      · rw [step_release_gone hr]; push_cast; omega
      · rw [step_release_live hg hr]
        show 0 ≤ (h.release r.definition).referenceCounter ∧
          (h.release r.definition).referenceCounter ≤ (n + 1 : Nat)
        push_cast
        rcases release_counter h r.definition with hc | ⟨hgt, hc⟩
        · rw [hc]; omega
        · have hw : wrapInt (r.definition.referenceCounter - 1)
              = r.definition.referenceCounter - 1 := by
            apply wrapInt_of_bounds <;> omega
          rw [hc, hw]; omega
  | setShared sh =>
    show 0 ≤ r.definition.referenceCounter ∧ r.definition.referenceCounter ≤ (n + 1 : Nat)
    push_cast; omega
  | setPersistent p =>
    show 0 ≤ r.definition.referenceCounter ∧ r.definition.referenceCounter ≤ (n + 1 : Nat)
    push_cast; omega
  | tag t =>
    show 0 ≤ r.definition.referenceCounter ∧ r.definition.referenceCounter ≤ (n + 1 : Nat)
    push_cast; omega

theorem counter_nonneg (T : TypeInfo) (ctor : Construct) (ops : List Op)
    (hlen : ops.length < 2 ^ 31 - 1) :
    0 ≤ ((Run.start (ServiceDefinition.create T ctor)).run ops).definition.referenceCounter :=
  (run_induction_any
    (fun n r => 0 ≤ r.definition.referenceCounter ∧ r.definition.referenceCounter ≤ n)
    _ ops ⟨le_refl _, le_refl _⟩
    (fun n r o hn h => counter_bounds ops.length hlen n r o hn h)).1

theorem liveCount_add (r : Run) (hnd : r.released.Nodup)
    (hb : ∀ i ∈ r.released, i < r.issued.length) :
    r.liveCount + r.released.length = r.issued.length := by
  have h1 := @List.length_eq_length_filter_add _ (List.range r.issued.length) r.live
  rw [List.length_range] at h1
  have h2 : ((List.range r.issued.length).filter (fun i => !r.live i)).Perm r.released := by
    rw [List.perm_ext_iff_of_nodup ((List.nodup_range _).filter _) hnd]
    intro i
    simp only [List.mem_filter, List.mem_range, Run.live]
    constructor
    · rintro ⟨hi, h⟩
      simpa [hi] using h
    · intro hi
      exact ⟨hb i hi, by simp [hi]⟩
  rw [h2.length_eq] at h1
  unfold Run.liveCount
  omega

theorem get_refcounted_cases {d : ServiceDefinition} (hs : d.shared = true)
    (hp : d.persistent = false) :
    (d.sharedInstance = nullptr ∧
      ∃ e, d.get = (.error e, { d with constructed := d.constructed + 1 })) ∨
    (d.sharedInstance = nullptr ∧
      ∃ p, d.constructor d.constructed = .ok p ∧
        d.get = (.ok ⟨p, .destructShared⟩,
          { d with constructed := d.constructed + 1, sharedInstance := p,
                   referenceCounter := wrapInt (d.referenceCounter + 1) })) ∨
    (d.sharedInstance ≠ nullptr ∧
      d.get = (.ok ⟨d.sharedInstance, .destructShared⟩,
        { d with referenceCounter := wrapInt (d.referenceCounter + 1) })) := by
  by_cases hi : d.sharedInstance = nullptr
  · cases hc : d.constructor d.constructed with
    | error e =>
      left
      exact ⟨hi, e, by simp [ServiceDefinition.get, ServiceDefinition.construct, hs, hi, hc]⟩
    | ok p =>
      right; left
      exact ⟨hi, p, rfl,
        by simp [ServiceDefinition.get, ServiceDefinition.construct, hs, hp, hi, hc]⟩
  · right; right
    exact ⟨hi, by simp [ServiceDefinition.get, hs, hp, hi]⟩

theorem aliasedRun_step (ctor : Construct) (hnn : ∀ k p, ctor k = .ok p → p ≠ nullptr)
    (n : Nat) (r : Run) (o : Op) (ho : o.isRetrieval = true)
    (hc : CountedRun n r) (h : AliasedRun ctor r) : AliasedRun ctor (r.step o) := by
  obtain ⟨hce, hnon, hsame⟩ := h
  cases o with
  | get =>
    rcases get_refcounted_cases hc.shared hc.persistent with
      ⟨_, e, he⟩ | ⟨hi, p, hp, he⟩ | ⟨hi, he⟩
    · simp only [Run.step, he]
      exact ⟨hce, hnon, hsame⟩
    · simp only [Run.step, he]
      have hpn : p ≠ nullptr := hnn _ p (by rw [← hce]; exact hp)
      refine ⟨hce, ?_, ?_⟩
      · intro h hh
        rcases List.mem_append.1 hh with hh | hh
        · exact hnon h hh
        · rw [List.mem_singleton] at hh; rw [hh]; exact hpn
      · intro hd h hh
        rcases List.mem_append.1 hh with hh | hh
        · exact absurd ((hsame hd h hh).trans hi) (hnon h hh)
        · rw [List.mem_singleton] at hh; rw [hh]
    · simp only [Run.step, he]
      refine ⟨hce, ?_, ?_⟩
      · intro h hh
        rcases List.mem_append.1 hh with hh | hh
        · exact hnon h hh
        · rw [List.mem_singleton] at hh; rw [hh]; exact hi
      · intro hd h hh
        rcases List.mem_append.1 hh with hh | hh
        · exact hsame hd h hh
        · rw [List.mem_singleton] at hh; rw [hh]
  | release i =>
    cases hg : r.issued[i]? with
    | none => rw [step_release_none hg]; exact ⟨hce, hnon, hsame⟩
    | some h =>
      by_cases hr : i ∈ r.released
      · rw [step_release_gone hr]; exact ⟨hce, hnon, hsame⟩
      · rw [step_release_live hg hr]
        have hdel : h.release r.definition = r.definition.destructShared h.ptr := by
          simp [Handle.release, hc.deleter h (List.getElem?_mem hg)]
        rw [hdel]
        by_cases hle : r.definition.referenceCounter ≤ 1
        · have e : r.definition.destructShared h.ptr
              = { r.definition.destruct h.ptr with sharedInstance := nullptr } := by
            simp [ServiceDefinition.destructShared, hc.persistent, hle]
          rw [e]
          refine ⟨hce, hnon, ?_⟩
          intro hd
          simp [ServiceDefinition.destruct] at hd
        · have e : r.definition.destructShared h.ptr
              = { r.definition with
                    referenceCounter := wrapInt (r.definition.referenceCounter - 1) } := by
            simp [ServiceDefinition.destructShared, hc.persistent, hle]
          rw [e]
          exact ⟨hce, hnon, hsame⟩
  | setShared sh => simp [Op.isRetrieval] at ho
  | setPersistent p => simp [Op.isRetrieval] at ho
  | tag t => simp [Op.isRetrieval] at ho

theorem aliasedRun_run (T : TypeInfo) (ctor : Construct) (ops : List Op)
    (hops : ∀ o ∈ ops, o.isRetrieval = true) (hlen : ops.length < 2 ^ 31 - 1)
    (hnn : ∀ k p, ctor k = .ok p → p ≠ nullptr) :
    AliasedRun ctor
      ((Run.start (((ServiceDefinition.create T ctor).setShared true).setPersistent false)).run
        ops) := by
  have h := run_induction (fun n r => CountedRun n r ∧ AliasedRun ctor r)
    (Run.start (((ServiceDefinition.create T ctor).setShared true).setPersistent false))
    ops hops
    ⟨countedRun_run T ctor [] (by simp) (by decide),
      ⟨rfl, by simp [Run.start], by simp [Run.start]⟩⟩
    (fun n r o hn ho hh =>
      ⟨countedRun_step ops.length hlen n r o hn ho hh.1,
        aliasedRun_step ctor hnn n r o ho hh.1 hh.2⟩)
  exact h.2

/-- C17, as stated, fails, with both flags at shared and not persistent at
every `get`. After `get` and the release of its handle no handle is live and
the counter is 1. After two `get`s, `setPersistent(true)` and one release, one
handle is live and the counter is 2. After `get`, release, `get`, the second
`get` found the cache empty and the counter is 2. -/
theorem referenceCounter_not_live_count :
    ((Run.start (ServiceDefinition.create "Engine" (allocating 100))).run
        [.setPersistent false, .get, .release 0]).definition.referenceCounter = 1 ∧
    ((Run.start (ServiceDefinition.create "Engine" (allocating 100))).run
        [.setPersistent false, .get, .release 0]).liveCount = 0 ∧
    ((Run.start (ServiceDefinition.create "Engine" (allocating 100))).run
        [.setPersistent false, .get, .release 0]).definition.sharedInstance = nullptr ∧
    ((Run.start (ServiceDefinition.create "Engine" (allocating 100))).run
        [.setPersistent false, .get, .release 0, .get]).definition.referenceCounter = 2 ∧
    ((Run.start (ServiceDefinition.create "Engine" (allocating 100))).run
        [.setPersistent false, .get, .get, .setPersistent true,
          .release 0]).definition.referenceCounter = 2 ∧
    ((Run.start (ServiceDefinition.create "Engine" (allocating 100))).run
        [.setPersistent false, .get, .get, .setPersistent true, .release 0]).liveCount = 1 ∧
    ((Run.start (ServiceDefinition.create "Engine" (allocating 100))).run
        [.setPersistent false, .get, .get, .setPersistent true,
          .release 0]).definition.sharedInstance = 100 := by
  decide

/-- C17, amended. From a fresh definition, after fewer than `2^31 - 1`
operations of any kind, the counter is not negative. When the definition is
set to shared and not persistent before its first `get` and only `get`s and
releases follow, then as long as the teardown closure has not been invoked the
counter is the number of live handles; when moreover the factory never yields
`nullptr`, every handle issued holds the cached instance, and a `get` that
finds the cache empty and returns leaves the counter at 1. -/
theorem referenceCounter_tracks_live (T : TypeInfo) (ctor : Construct) (ops ops2 : List Op) :
    (ops.length < 2 ^ 31 - 1 →
      0 ≤ ((Run.start (ServiceDefinition.create T ctor)).run
        ops).definition.referenceCounter) ∧
    ((∀ o ∈ ops2, o.isRetrieval = true) → ops2.length < 2 ^ 31 - 1 →
      ((Run.counted T ctor).run ops2).definition.destructed = [] →
      ((Run.counted T ctor).run ops2).definition.referenceCounter
        = ((Run.counted T ctor).run ops2).liveCount ∧
      ((∀ k p, ctor k = .ok p → p ≠ nullptr) →
        (∀ h ∈ ((Run.counted T ctor).run ops2).issued,
          h.ptr = ((Run.counted T ctor).run ops2).definition.sharedInstance) ∧
        (((Run.counted T ctor).run ops2).definition.sharedInstance = nullptr →
          ∀ h, (((Run.counted T ctor).run ops2).definition.get).1 = .ok h →
            (((Run.counted T ctor).run ops2).step .get).definition.referenceCounter = 1))) := by
  refine ⟨counter_nonneg T ctor ops, ?_⟩
  intro hops hlen hd
  have hc : CountedRun ops2.length ((Run.counted T ctor).run ops2) :=
    countedRun_run T ctor ops2 hops hlen
  have haA : (∀ k p, ctor k = .ok p → p ≠ nullptr) →
      AliasedRun ctor ((Run.counted T ctor).run ops2) :=
    fun hnn => aliasedRun_run T ctor ops2 hops hlen hnn
  generalize (Run.counted T ctor).run ops2 = r at hc haA hd
  have hcount : r.definition.referenceCounter = r.liveCount := by
    have h1 := liveCount_add r hc.nodup hc.bound
    have h2 := hc.counter
    rw [hd] at h2
    simp only [List.length_nil] at h2
    omega
  refine ⟨hcount, ?_⟩
  intro hnn
  have ha := haA hnn
  refine ⟨ha.same hd, ?_⟩
  intro hi h hh
  have hnil : r.issued = [] := by
    cases hiss : r.issued with
    | nil => rfl
    | cons a l =>
      have hm : a ∈ r.issued := by rw [hiss]; exact List.mem_cons_self _ _
      exact absurd ((ha.same hd a hm).trans hi) (ha.nonnull a hm)
  have hc0 : r.definition.referenceCounter = 0 := by
    have h1 := liveCount_add r hc.nodup hc.bound
    rw [hnil] at h1
    simp only [List.length_nil] at h1
    rw [hcount]
    omega
  have e : (r.step .get).definition = (r.definition.get).2 := by
    simp only [Run.step]
    split <;> rename_i heq <;> rw [heq]
  rw [e]
  rcases get_refcounted_cases hc.shared hc.persistent with
    ⟨_, x, he⟩ | ⟨_, p, _, he⟩ | ⟨hne, _⟩
  · rw [he] at hh; cases hh
  · rw [he, hc0]
    show wrapInt (0 + 1) = 1
    decide
  · exact absurd hi hne

theorem referenceCounter_tracks_live_witness :
    0 ≤ ((Run.start (ServiceDefinition.create "Engine" (allocating 100))).run
        [.setPersistent false, .get, .setShared false, .release 0,
          .get]).definition.referenceCounter ∧
    ((Run.counted "Engine" (allocating 100)).run
        [.get, .get, .release 0, .get]).definition.referenceCounter
      = ((Run.counted "Engine" (allocating 100)).run [.get, .get, .release 0, .get]).liveCount ∧
    ((Run.counted "Engine" (allocating 100)).run [.get, .get, .release 0, .get]).liveCount = 2 ∧
    (((Run.counted "Engine" (allocating 100)).run []).step .get).definition.referenceCounter
      = 1 :=
  ⟨(referenceCounter_tracks_live "Engine" (allocating 100)
      [.setPersistent false, .get, .setShared false, .release 0, .get] []).1 (by decide),
   ((referenceCounter_tracks_live "Engine" (allocating 100) []
      [.get, .get, .release 0, .get]).2 (by decide) (by decide) (by decide)).1,
   by decide,
   (((referenceCounter_tracks_live "Engine" (allocating 100) [] []).2 (by decide) (by decide)
      (by decide)).2 (fun k p hp => by
        simp only [allocating, Except.ok.injEq] at hp
        intro hz
        rw [hz] at hp
        exact absurd hp (by simp [nullptr]))).2 rfl ⟨100, .destructShared⟩ (by decide)⟩

/-! ## Flags changed after retrieval -/

/-- C18, as stated, fails. After a `get` on a fresh definition the predicate
holds; `setShared(false)` then leaves the object cached in a definition that
is not shared. -/
theorem setShared_breaks_cachedOnlyIfShared :
    ((ServiceDefinition.create "Engine" (allocating 100)).get).2.cachedOnlyIfShared ∧
    ¬ ((((ServiceDefinition.create "Engine" (allocating 100)).get).2.setShared
        false).cachedOnlyIfShared) ∧
    (((ServiceDefinition.create "Engine" (allocating 100)).get).2.setShared
        false).sharedInstance = 100 ∧
    (((ServiceDefinition.create "Engine" (allocating 100)).get).2.setShared
        false).shared = false := by
  refine ⟨fun _ => rfl, ?_, rfl, rfl⟩
  intro h
  exact absurd (h (by decide)) (by decide)

/-- C18, amended. The predicate "the cached instance is non-empty only if
`shared`" holds of a fresh definition and is preserved by `setPersistent`,
`tag`, `get`, the release of any handle, `setShared(true)`, and by
`setShared(false)` on a definition whose cache is empty. -/
theorem cachedOnlyIfShared_preserved (T : TypeInfo) (ctor : Construct) :
    (ServiceDefinition.create T ctor).cachedOnlyIfShared ∧
    ∀ d : ServiceDefinition, d.cachedOnlyIfShared →
      (∀ p, (d.setPersistent p).cachedOnlyIfShared) ∧
      (∀ t, (d.tag t).cachedOnlyIfShared) ∧
      (d.get).2.cachedOnlyIfShared ∧
      (∀ h : Handle, (h.release d).cachedOnlyIfShared) ∧
      (d.setShared true).cachedOnlyIfShared ∧
      (d.sharedInstance = nullptr → (d.setShared false).cachedOnlyIfShared) := by
  refine ⟨fun h => absurd rfl h, ?_⟩
  intro d hd
  refine ⟨fun p => hd, fun t => hd, ?_, ?_, fun _ => rfl, fun h0 h => absurd h0 h⟩
  · by_cases hs : d.shared = true
    · have hshared : (d.get).2.shared = true := by
        by_cases hp : d.persistent = true
        · rcases get_kept hs hp with ⟨e, he⟩ | ⟨p, he⟩ | he <;> rw [he] <;> exact hs
        · have hp' : d.persistent = false := by simpa using hp
          rcases get_refcounted hs hp' with ⟨e, he⟩ | ⟨p, he⟩ | he <;> rw [he] <;> exact hs
      exact fun _ => hshared
    · have hs' : d.shared = false := by simpa using hs
      rw [get_transient hs']
      exact hd
  · intro h
    cases hdel : h.deleter with
    | destructor =>
      simp only [Handle.release, hdel]
      exact hd
    | destructShared =>
      simp only [Handle.release, hdel, ServiceDefinition.destructShared]
      by_cases hp : d.persistent = true
      · simp only [hp, Bool.not_true, Bool.false_eq_true, if_false]
        exact hd
      · have hp' : d.persistent = false := by simpa using hp
        by_cases hle : d.referenceCounter ≤ 1
        · simp only [hp', Bool.not_false, if_true, hle]
          exact fun h0 => absurd rfl h0
        · simp only [hp', Bool.not_false, if_true, hle, if_false]
          exact hd

theorem cachedOnlyIfShared_preserved_witness :
    (ServiceDefinition.create "Engine" (allocating 100)).cachedOnlyIfShared ∧
    ((ServiceDefinition.create "Engine" (allocating 100)).get).2.cachedOnlyIfShared ∧
    ((ServiceDefinition.create "Engine" (allocating 100)).setShared false).cachedOnlyIfShared :=
  ⟨(cachedOnlyIfShared_preserved "Engine" (allocating 100)).1,
   ((cachedOnlyIfShared_preserved "Engine" (allocating 100)).2 _
      (cachedOnlyIfShared_preserved "Engine" (allocating 100)).1).2.2.1,
   ((cachedOnlyIfShared_preserved "Engine" (allocating 100)).2 _
      (cachedOnlyIfShared_preserved "Engine" (allocating 100)).1).2.2.2.2.2 rfl⟩

/-- C19. On a fresh (shared, persistent) definition whose factory yields an
object `p` at its first invocation: after two `get`s both handles hold `p` and
the counter is 0; after `setPersistent(false)` the release of either handle
invokes the teardown closure on `p`, and the release of the other one invokes
it on `p` again. -/
theorem teardown_twice_after_setPersistent (T : TypeInfo) (ctor : Construct) (p : Ptr)
    (h0 : ctor 0 = .ok p) (hp : p ≠ nullptr) (i j : Nat)
    (hij : (i = 0 ∧ j = 1) ∨ (i = 1 ∧ j = 0)) :
    ((Run.start (ServiceDefinition.create T ctor)).run
        [.get, .get, .setPersistent false]).issued
      = [⟨p, .destructShared⟩, ⟨p, .destructShared⟩] ∧
    ((Run.start (ServiceDefinition.create T ctor)).run
        [.get, .get, .setPersistent false]).definition.referenceCounter = 0 ∧
    ((Run.start (ServiceDefinition.create T ctor)).run
        [.get, .get, .setPersistent false]).definition.destructed = [] ∧
    ((Run.start (ServiceDefinition.create T ctor)).run
        [.get, .get, .setPersistent false, .release i]).definition.destructed = [p] ∧
    ((Run.start (ServiceDefinition.create T ctor)).run
        [.get, .get, .setPersistent false, .release i, .release j]).definition.destructed
      = [p, p] := by
  rcases hij with ⟨rfl, rfl⟩ | ⟨rfl, rfl⟩ <;>
    simp [Run.run, Run.step, Run.start, ServiceDefinition.get, ServiceDefinition.construct,
      ServiceDefinition.create, ServiceDefinition.setPersistent,
      ServiceDefinition.destructShared, ServiceDefinition.destruct, Handle.release, h0, hp]

theorem teardown_twice_after_setPersistent_witness :
    allocating 100 0 = .ok 100 ∧
    ((Run.start (ServiceDefinition.create "Engine" (allocating 100))).run
        [.get, .get, .setPersistent false, .release 0, .release 1]).definition.destructed
      = [100, 100] :=
  ⟨rfl,
   (teardown_twice_after_setPersistent "Engine" (allocating 100) 100 rfl (by decide) 0 1
      (Or.inl ⟨rfl, rfl⟩)).2.2.2.2⟩

end fuze
